import Mathlib

set_option maxHeartbeats 1000000

/-!
Verification development for a newline-delimited JSON stream framer.

The embedding below translates the single source file of the repository: a
class holding a pending buffer, a chunk-arrival handler that reassembles and
classifies delimiter-terminated lines, error/end normalization, and a
write method that serializes a value and forwards it to the output stream.
Strings are modelled as lists of characters; the platform JSON
encoder/decoder is modelled by an executable serializer and recursive-descent
decoder over a JSON value type (numbers are modelled as integers, since
floating point is outside the embedding).
-/

namespace JsonStream

/-- Whitespace test modelling the character class of the JavaScript
whitespace escape used by the record pre-check and the non-whitespace
content test (ASCII range; rare Unicode space characters are omitted). -/
def isSpaceChar (c : Char) : Bool :=
  c = ' ' || c = '\t' || c = '\n' || c = '\r' || c = '\x0b' || c = '\x0c'

/-- Structural pre-check from the source (field recordRegExp, line 22):
optional leading whitespace followed by an opening brace. -/
def recordMatch (r : List Char) : Bool :=
  match r.dropWhile isSpaceChar with
  | '{' :: _ => true
  | _ => false

/-- Non-whitespace content test modelling the check at source line 83. -/
def hasContent (r : List Char) : Bool :=
  r.any fun c => !(isSpaceChar c)

/-- Configurable fields of the stream wrapper (source lines 22-25), with
their defaults. -/
structure Config where
  EOL : List Char
  maxLineLength : Nat
  preserveWhitespace : Bool

/-- Default configuration: line-feed delimiter, 1 MiB buffer bound,
whitespace-only lines skipped. -/
def defaultConfig : Config := ⟨['\n'], 1024 * 1024, false⟩

mutual
/-- JSON values as decoded by the platform decoder. Numbers are modelled as
integers. -/
inductive JsonValue where
  | null
  | bool (b : Bool)
  | num (n : Int)
  | str (s : List Char)
  | arr (elems : JsonElems)
  | obj (fields : JsonFields)
/-- Element list of a JSON array. -/
inductive JsonElems where
  | nil
  | cons (v : JsonValue) (rest : JsonElems)
/-- Field list of a JSON object (keys kept in order). -/
inductive JsonFields where
  | nil
  | cons (k : List Char) (v : JsonValue) (rest : JsonFields)
end

/-- JavaScript truthiness of a decoded value: the source tests the decoded
result before emitting it (line 79). -/
def jsTruthy : JsonValue → Bool
  | .null => false
  | .bool b => b
  | .num n => decide (n ≠ 0)
  | .str s => decide (s ≠ [])
  | .arr _ => true
  | .obj _ => true

/-- Observer-facing events emitted by the stream wrapper. A decode failure
event carries the offending line (the source attaches it as the second
emit argument, line 71). -/
inductive Event where
  | json (v : JsonValue)
  | text (s : List Char)
  | error (line : List Char)
  | streamEnd

/-! ### Decimal digits (for the modelled platform serializer and decoder) -/

/-- One decimal digit character. -/
def digitChar (d : Nat) : Char :=
  if d = 0 then '0' else if d = 1 then '1' else if d = 2 then '2'
  else if d = 3 then '3' else if d = 4 then '4' else if d = 5 then '5'
  else if d = 6 then '6' else if d = 7 then '7' else if d = 8 then '8'
  else '9'

/-- Numeric value of a decimal digit character. -/
def charVal (c : Char) : Nat := c.toNat - 48

/-- Little-endian decimal digits of a natural number, fuel-driven so that it
reduces definitionally. -/
def natDigitsAux : Nat → Nat → List Nat
  | 0, _ => []
  | fuel + 1, n => if n = 0 then [] else (n % 10) :: natDigitsAux fuel (n / 10)

/-- Decimal rendering of a natural number. -/
def natChars (n : Nat) : List Char :=
  if n = 0 then ['0'] else ((natDigitsAux n n).reverse.map digitChar)

/-- Decimal rendering of an integer. -/
def strNum (i : Int) : List Char :=
  if i < 0 then '-' :: natChars i.natAbs else natChars i.toNat

/-- One hexadecimal digit character (lowercase). -/
def hexDigit (d : Nat) : Char :=
  if d = 0 then '0' else if d = 1 then '1' else if d = 2 then '2'
  else if d = 3 then '3' else if d = 4 then '4' else if d = 5 then '5'
  else if d = 6 then '6' else if d = 7 then '7' else if d = 8 then '8'
  else if d = 9 then '9' else if d = 10 then 'a' else if d = 11 then 'b'
  else if d = 12 then 'c' else if d = 13 then 'd' else if d = 14 then 'e'
  else 'f'

/-- Numeric value of a hexadecimal digit character. -/
def hexVal (c : Char) : Option Nat :=
  if c.isDigit then some (c.toNat - 48)
  else if 'a' ≤ c && c ≤ 'f' then some (c.toNat - 87)
  else if 'A' ≤ c && c ≤ 'F' then some (c.toNat - 55)
  else none

/-! ### Modelled platform serializer -/

/-- Escaping of one character inside a JSON string literal: quote and
backslash are escaped, control characters become a four-digit unicode
escape, everything else is copied verbatim. -/
def escChar (c : Char) : List Char :=
  if c = '"' then ['\\', '"']
  else if c = '\\' then ['\\', '\\']
  else if c.toNat < 32 then
    ['\\', 'u', '0', '0', hexDigit (c.toNat / 16), hexDigit (c.toNat % 16)]
  else [c]

/-- Escaped body of a JSON string literal. -/
def escapeStr (s : List Char) : List Char := (s.map escChar).flatten

mutual
/-- Serialized text of a JSON value, modelling the platform serializer. -/
def strVal : JsonValue → List Char
  | .null => ("null").toList
  | .bool true => ("true").toList
  | .bool false => ("false").toList
  | .num i => strNum i
  | .str s => '"' :: (escapeStr s ++ ['"'])
  | .arr es => '[' :: (strElems es ++ [']'])
  | .obj fs => '{' :: (strFields fs ++ ['}'])
/-- Serialized comma-separated element list. -/
def strElems : JsonElems → List Char
  | .nil => []
  | .cons v t => strVal v ++ strTail t
/-- Serialized continuation of an element list (a leading comma per
element). -/
def strTail : JsonElems → List Char
  | .nil => []
  | .cons v t => ',' :: (strVal v ++ strTail t)
/-- Serialized comma-separated field list. -/
def strFields : JsonFields → List Char
  | .nil => []
  | .cons k v t => '"' :: (escapeStr k ++ '"' :: ':' :: (strVal v ++ strFTail t))
/-- Serialized continuation of a field list (a leading comma per field). -/
def strFTail : JsonFields → List Char
  | .nil => []
  | .cons k v t => ',' :: '"' :: (escapeStr k ++ '"' :: ':' :: (strVal v ++ strFTail t))
end

/-! ### Modelled platform decoder -/

/-- JSON-grammar whitespace (as accepted by the platform decoder between
tokens). -/
def isJsonWS (c : Char) : Bool :=
  c = ' ' || c = '\t' || c = '\n' || c = '\r'

/-- Skip JSON whitespace. -/
def skipWS (s : List Char) : List Char := s.dropWhile isJsonWS

/-- Consume an expected literal; answers the remainder on success. -/
def stripLit : List Char → List Char → Option (List Char)
  | [], s => some s
  | _ :: _, [] => none
  | c :: t, x :: xs => if x = c then stripLit t xs else none

/-- Body of a JSON string literal after the opening quote, fuel-driven:
unescapes until the closing quote, yielding the decoded characters and the
remainder. The fuel only bounds the recursion; one unit is spent per
decoded character, so the input length is always enough. -/
def escSimple (e : Char) : Option Char :=
  if e = '"' then some '"'
  else if e = '\\' then some '\\'
  else if e = '/' then some '/'
  else if e = 'b' then some '\x08'
  else if e = 'f' then some '\x0c'
  else if e = 'n' then some '\n'
  else if e = 'r' then some '\r'
  else if e = 't' then some '\t'
  else none

/-- Decodes one escape sequence after a backslash; `k` continues decoding
the rest of the string body after the sequence. -/
def parseEsc (k : List Char → Option (List Char × List Char)) :
    List Char → Option (List Char × List Char)
  | [] => none
  | e :: rest2 =>
    if e = 'u' then
      match rest2 with
      | a :: b :: c2 :: d :: rest3 =>
        match hexVal a, hexVal b, hexVal c2, hexVal d with
        | some ha, some hb, some hc, some hd =>
          match k rest3 with
          | some (t, r) => some (Char.ofNat (((ha * 16 + hb) * 16 + hc) * 16 + hd) :: t, r)
          | none => none
        | _, _, _, _ => none
      | _ => none
    else
      match escSimple e with
      | some u =>
        match k rest2 with
        | some (t, r) => some (u :: t, r)
        | none => none
      | none => none

def parseStrCharsF : Nat → List Char → Option (List Char × List Char)
  | 0, _ => none
  | _ + 1, [] => none
  | fuel + 1, c :: rest =>
    if c = '"' then some ([], rest)
    else if c = '\\' then parseEsc (fun s => parseStrCharsF fuel s) rest
    else
      match parseStrCharsF fuel rest with
      | some (t, r) => some (c :: t, r)
      | none => none

/-- Body of a JSON string literal after the opening quote. -/
def parseStrChars (s : List Char) : Option (List Char × List Char) :=
  parseStrCharsF s.length s

/-- Maximal run of decimal digits, decoded as a natural number. -/
def parseNat (s : List Char) : Option (Nat × List Char) :=
  match s.takeWhile Char.isDigit with
  | [] => none
  | ds => some (ds.foldl (fun a c => 10 * a + charVal c) 0, s.dropWhile Char.isDigit)

mutual
/-- Recursive-descent value decoder, fuel-driven. Models the platform
decoder on the grammar the serializer produces (integer numerals; leading
zeros and fraction/exponent parts are not treated). -/
def parseVal : Nat → List Char → Option (JsonValue × List Char)
  | 0, _ => none
  | fuel + 1, s =>
    match skipWS s with
    | [] => none
    | c :: rest =>
      if c = 'n' then (stripLit ['u', 'l', 'l'] rest).map fun r => (.null, r)
      else if c = 't' then (stripLit ['r', 'u', 'e'] rest).map fun r => (.bool true, r)
      else if c = 'f' then (stripLit ['a', 'l', 's', 'e'] rest).map fun r => (.bool false, r)
      else if c = '"' then (parseStrChars rest).map fun p => (.str p.1, p.2)
      else if c = '-' then (parseNat rest).map fun p => (.num (-(p.1 : Int)), p.2)
      else if c = '[' then parseArrBody fuel rest
      else if c = '{' then parseObjBody fuel rest
      else if c.isDigit then (parseNat (c :: rest)).map fun p => (.num ((p.1 : Nat) : Int), p.2)
      else none
/-- Array body after the opening bracket. -/
def parseArrBody : Nat → List Char → Option (JsonValue × List Char)
  | 0, _ => none
  | fuel + 1, s =>
    match skipWS s with
    | [] => none
    | c :: rest =>
      if c = ']' then some (.arr .nil, rest)
      else
        match parseVal fuel s with
        | none => none
        | some (v, r) =>
          match parseElemsTail fuel r with
          | none => none
          | some (es, r2) => some (.arr (.cons v es), r2)
/-- Continuation of an array body: a comma and a value, or the closing
bracket. -/
def parseElemsTail : Nat → List Char → Option (JsonElems × List Char)
  | 0, _ => none
  | fuel + 1, s =>
    match skipWS s with
    | [] => none
    | c :: rest =>
      if c = ',' then
        match parseVal fuel rest with
        | none => none
        | some (v, r) =>
          match parseElemsTail fuel r with
          | none => none
          | some (es, r2) => some (.cons v es, r2)
      else if c = ']' then some (.nil, rest)
      else none
/-- Object body after the opening brace. -/
def parseObjBody : Nat → List Char → Option (JsonValue × List Char)
  | 0, _ => none
  | fuel + 1, s =>
    match skipWS s with
    | [] => none
    | c :: rest =>
      if c = '}' then some (.obj .nil, rest)
      else
        match parseMember fuel (c :: rest) with
        | none => none
        | some (k, v, r) =>
          match parseFieldsTail fuel r with
          | none => none
          | some (fs, r2) => some (.obj (.cons k v fs), r2)
/-- One key-value member of an object. -/
def parseMember : Nat → List Char → Option (List Char × JsonValue × List Char)
  | 0, _ => none
  | fuel + 1, s =>
    match skipWS s with
    | [] => none
    | c :: rest =>
      if c = '"' then
        match parseStrChars rest with
        | none => none
        | some (k, r1) =>
          match skipWS r1 with
          | [] => none
          | c2 :: r2 =>
            if c2 = ':' then
              match parseVal fuel r2 with
              | none => none
              | some (v, r3) => some (k, v, r3)
            else none
      else none
/-- Continuation of an object body: a comma and a member, or the closing
brace. -/
def parseFieldsTail : Nat → List Char → Option (JsonFields × List Char)
  | 0, _ => none
  | fuel + 1, s =>
    match skipWS s with
    | [] => none
    | c :: rest =>
      if c = ',' then
        match parseMember fuel rest with
        | none => none
        | some (k, v, r) =>
          match parseFieldsTail fuel r with
          | none => none
          | some (fs, r2) => some (.cons k v fs, r2)
      else if c = '}' then some (.nil, rest)
      else none
end

/-- Top-level decode, modelling the platform decoder: a single value,
optionally surrounded by whitespace; anything trailing is a failure. -/
def jsonParse (s : List Char) : Option JsonValue :=
  match parseVal (s.length + 1) s with
  | some (v, rest) => if skipWS rest = [] then some v else none
  | none => none

/-! ### Frame Reader: the chunk-arrival handler (source lines 45-91) -/

/-- Splitting worker: leftmost, non-overlapping occurrences of the
separator, fuel-driven so that it reduces definitionally (the fuel is set to
the input length, which the recursion never exhausts for a non-empty
separator). -/
def splitStrAux (sep : List Char) : Nat → List Char → List Char → List (List Char)
  | _, acc, [] => [acc.reverse]
  | 0, acc, s => [acc.reverse ++ s]
  | fuel + 1, acc, x :: xs =>
    if sep.isPrefixOf (x :: xs) then
      acc.reverse :: splitStrAux sep fuel [] ((x :: xs).drop sep.length)
    else
      splitStrAux sep fuel (x :: acc) xs

/-- The JavaScript string split on a separator string; an empty separator
splits into single characters. -/
def splitOnStr (sep s : List Char) : List (List Char) :=
  if sep = [] then s.map fun c => [c] else splitStrAux sep s.length [] s

/-- Suffix test as the source performs it (line 56): the last
separator-many characters compared against the separator (an out-of-range
start clamps to the whole string, as substring does). -/
def strEndsWith (s sep : List Char) : Bool :=
  decide (s.drop (s.length - sep.length) = sep)

/-- Steps 1-2 of the handler (source lines 46-50): a non-empty pending
buffer is prepended to the incoming chunk, and only then, if the combined
length exceeds the maximum, everything but the most recent maximum-many
characters is discarded. -/
def truncStep (cfg : Config) (buffer chunk : List Char) : List Char :=
  if buffer ≠ [] then
    if (buffer ++ chunk).length > cfg.maxLineLength then
      (buffer ++ chunk).drop ((buffer ++ chunk).length - cfg.maxLineLength)
    else buffer ++ chunk
  else chunk

/-- Classification of one complete record (loop body, source lines 63-89).
The flag says whether the record is the last of this batch: only then is
the delimiter not re-appended to a text line. -/
def classifyRecord (cfg : Config) (record : List Char) (isLast : Bool) : List Event :=
  if recordMatch record then
    match jsonParse record with
    | some v => if jsTruthy v then [Event.json v] else []
    | none => [Event.error record]
  else if cfg.preserveWhitespace || hasContent record then
    if (record ++ (if isLast then [] else cfg.EOL)).length ≠ 0 then
      [Event.text (record ++ (if isLast then [] else cfg.EOL))]
    else []
  else []

/-- The record loop (source lines 63-89): every record but the last is
classified with the delimiter re-appended to text lines. -/
def loopRecords (cfg : Config) : List (List Char) → List Event
  | [] => []
  | r :: rs => classifyRecord cfg r rs.isEmpty ++ loopRecords cfg rs

/-- The chunk-arrival handler (source lines 45-91): prepend-and-truncate,
split on the delimiter, pop the trailing partial segment into the pending
buffer when the data does not end on the delimiter, then classify each
remaining record in order. Answers the new pending buffer and the emitted
events. -/
def dataHandler (cfg : Config) (buffer chunk : List Char) : List Char × List Event :=
  if strEndsWith (truncStep cfg buffer chunk) cfg.EOL then
    ([], loopRecords cfg (splitOnStr cfg.EOL (truncStep cfg buffer chunk)))
  else
    ((splitOnStr cfg.EOL (truncStep cfg buffer chunk)).getLastD [],
      loopRecords cfg (splitOnStr cfg.EOL (truncStep cfg buffer chunk)).dropLast)

/-- Sequential processing of a chunk list, threading the pending buffer,
modelling consecutive chunk-arrival invocations. -/
def runChunks (cfg : Config) (buffer : List Char) : List (List Char) → List Char × List Event
  | [] => (buffer, [])
  | c :: cs =>
    let r1 := dataHandler cfg buffer c
    let r2 := runChunks cfg r1.1 cs
    (r2.1, r1.2 ++ r2.2)

/-- Concatenation of a chunk sequence. -/
def concatChunks (cs : List (List Char)) : List Char := cs.foldr (· ++ ·) []

/-- Events observed over the whole life of an input stream delivering the
given chunks and then signalling end-of-input: the handler's events in
order, then the single end event (source lines 110-113; the pending buffer
is not flushed). -/
def runStreamEvents (cfg : Config) (chunks : List (List Char)) : List Event :=
  (runChunks cfg [] chunks).2 ++ [Event.streamEnd]

/-! ### Frame Writer (source lines 116-131) -/

/-- Argument domain of the write method as the platform serializer sees it:
either a serializable structure or one the serializer throws on (such as a
value containing cyclic references). -/
inductive JsVal where
  | val (v : JsonValue)
  | cyclic

/-- Modelled platform serializer call: throws on a cyclic structure. -/
def jsStringify : JsVal → Except String (List Char)
  | .val v => .ok (strVal v)
  | .cyclic => .error "Converting circular structure to JSON"

/-- The write method (source lines 116-131): serialize, append the
delimiter, forward to the output handle's write primitive and answer its
backpressure signal. The primitive is modelled by the written-chunk log
together with an arbitrary backpressure policy; a serialization failure
escapes before anything reaches the primitive, leaving the log unchanged. -/
def write (cfg : Config) (ret : List (List Char) → List Char → Bool)
    (st : List (List Char)) (v : JsVal) : Except String Bool × List (List Char) :=
  match jsStringify v with
  | .error e => (.error e, st)
  | .ok s => (.ok (ret st (s ++ cfg.EOL)), st ++ [s ++ cfg.EOL])

/-! ### Exception-aware rendering of the handler (for the safety claim) -/

/-- The decode attempt as a fallible operation (what the bare platform call
inside the try block is). -/
def jsonParseExn (r : List Char) : Except String JsonValue :=
  match jsonParse r with
  | some v => .ok v
  | none => .error "JSON Parse Error"

/-- The try/catch of source lines 69-72: a decode failure is converted into
the error event; no exception escapes. -/
def tryParse (record : List Char) : Except String (Option JsonValue × List Event) :=
  match jsonParseExn record with
  | .ok v => .ok (some v, [])
  | .error _ => .ok (none, [Event.error record])

/-- Classification with the decode modelled as a guarded fallible call. -/
def classifyRecordE (cfg : Config) (record : List Char) (isLast : Bool) :
    Except String (List Event) :=
  if recordMatch record then
    match tryParse record with
    | .error e => .error e
    | .ok (some v, es) => .ok (es ++ if jsTruthy v then [Event.json v] else [])
    | .ok (none, es) => .ok es
  else if cfg.preserveWhitespace || hasContent record then
    .ok (if (record ++ (if isLast then [] else cfg.EOL)).length ≠ 0 then
      [Event.text (record ++ (if isLast then [] else cfg.EOL))]
    else [])
  else .ok []

/-- The record loop, propagating any escaped exception. -/
def loopRecordsE (cfg : Config) : List (List Char) → Except String (List Event)
  | [] => .ok []
  | r :: rs =>
    match classifyRecordE cfg r rs.isEmpty with
    | .error e => .error e
    | .ok es =>
      match loopRecordsE cfg rs with
      | .error e => .error e
      | .ok es2 => .ok (es ++ es2)

/-- The chunk-arrival handler with exception propagation made explicit. -/
def dataHandlerE (cfg : Config) (buffer chunk : List Char) :
    Except String (List Char × List Event) :=
  if strEndsWith (truncStep cfg buffer chunk) cfg.EOL then
    match loopRecordsE cfg (splitOnStr cfg.EOL (truncStep cfg buffer chunk)) with
    | .error e => .error e
    | .ok es => .ok ([], es)
  else
    match loopRecordsE cfg (splitOnStr cfg.EOL (truncStep cfg buffer chunk)).dropLast with
    | .error e => .error e
    | .ok es => .ok ((splitOnStr cfg.EOL (truncStep cfg buffer chunk)).getLastD [], es)

/-! ### Auxiliary notions used by the statements and proofs below -/

/-- Strip one re-appended trailing delimiter from a text payload; all other
events are untouched. Used to compare event sequences up to the
delimiter re-appended to mid-batch text lines. -/
def stripEolText (cfg : Config) : Event → Event
  | .text s =>
    .text (if strEndsWith s cfg.EOL then s.take (s.length - cfg.EOL.length) else s)
  | e => e

/-- Normalize an event list by stripping re-appended trailing delimiters
from text payloads. -/
def normEvents (cfg : Config) (es : List Event) : List Event :=
  es.map (stripEolText cfg)

/-- Single-character split of a string, presented as the first part paired
with the remaining parts (so the part list is never empty). -/
def splitChP (ch : Char) : List Char → List Char × List (List Char)
  | [] => ([], [])
  | x :: xs =>
    let p := splitChP ch xs
    if x = ch then ([], p.1 :: p.2) else (x :: p.1, p.2)

/-- All parts of the single-character split. -/
def chParts (ch : Char) (s : List Char) : List (List Char) :=
  (splitChP ch s).1 :: (splitChP ch s).2

/-- All parts except the trailing (possibly incomplete) one. -/
def doneParts (ch : Char) (s : List Char) : List (List Char) :=
  (chParts ch s).dropLast

/-- The trailing (possibly incomplete) part: the suffix after the last
delimiter occurrence. -/
def lastPart (ch : Char) (s : List Char) : List Char :=
  (chParts ch s).getLastD []

/-- Classification of a record sequence as if every record were the last of
its batch (no delimiter re-appended): the normal form that chunk-boundary
placement cannot influence. -/
def lastStyleEvents (cfg : Config) : List (List Char) → List Event
  | [] => []
  | r :: rs => classifyRecord cfg r true ++ lastStyleEvents cfg rs

/-- Decidable statement that a run of the handler over the given chunks,
starting from the given pending buffer, never triggers the overflow
truncation of step 2. -/
def noTruncRunB (cfg : Config) : List Char → List (List Char) → Bool
  | _, [] => true
  | b, d :: ds =>
    (b.isEmpty || decide ((b ++ d).length ≤ cfg.maxLineLength)) &&
      noTruncRunB cfg (dataHandler cfg b d).1 ds

/-- Concatenation of delimiter-terminated lines. -/
def joinLines (ch : Char) (ws : List (List Char)) : List Char :=
  ws.foldr (fun L acc => L ++ ch :: acc) []

/-- Holds when the string does not begin with a decimal digit (so a
preceding numeral cannot absorb it). -/
def noDigitHead : List Char → Bool
  | [] => true
  | c :: _ => !c.isDigit

mutual
/-- Decoder fuel sufficient for a value (one unit per decoder call). -/
def fuelVal : JsonValue → Nat
  | .null => 1
  | .bool _ => 1
  | .num _ => 1
  | .str _ => 1
  | .arr es => 1 + fuelElems es
  | .obj fs => 1 + fuelFields fs
/-- Decoder fuel sufficient for an element list. -/
def fuelElems : JsonElems → Nat
  | .nil => 1
  | .cons v t => 1 + max (fuelVal v) (fuelElems t)
/-- Decoder fuel sufficient for a field list. -/
def fuelFields : JsonFields → Nat
  | .nil => 1
  | .cons _ v t => 1 + max (1 + fuelVal v) (fuelFields t)
end

/-- Value of a little-endian decimal digit list. -/
def ofLE : List Nat → Nat
  | [] => 0
  | d :: t => d + 10 * ofLE t

/-! ## Claims settled by direct evaluation -/

/-- Claim C3: a decode failure on one record never affects sibling records
in the same chunk: the single-chunk input consisting of a malformed object
line, a plain text line and a well-formed object line emits, in order, one
error event referencing the malformed line, one text event carrying the
text line with its delimiter, and one json event carrying the decoded
object — nothing lost or reordered. -/
theorem claim3_error_isolation :
    (dataHandler defaultConfig []
        (("\x7bbad json\x7d\nhello\n\x7b\"ok\":true\x7d\n").toList)).2 =
      [Event.error (("\x7bbad json\x7d").toList),
       Event.text (("hello\n").toList),
       Event.json (JsonValue.obj (.cons (("ok").toList) (.bool true) .nil))] := rfl

/-- Claim C5: classification is decided by the
leading-whitespace-then-brace pre-check: an object line emits one json
event with the decoded object; a plain text line emits one text event with
the delimiter re-appended; a whitespace-only line emits nothing by default
and one text event when whitespace preservation is enabled; a line that
fails the pre-check (such as a JSON array) is treated as text. -/
theorem claim5_classification :
    (dataHandler defaultConfig [] (("\x7b\"a\":1\x7d\n").toList)).2 =
        [Event.json (JsonValue.obj (.cons (("a").toList) (.num 1) .nil))] ∧
    (dataHandler defaultConfig [] (("hello\n").toList)).2 =
        [Event.text (("hello\n").toList)] ∧
    (dataHandler defaultConfig [] (("   \n").toList)).2 = [] ∧
    (dataHandler ⟨['\n'], 1024 * 1024, true⟩ [] (("   \n").toList)).2 =
        [Event.text (("   \n").toList)] ∧
    (dataHandler defaultConfig [] (("[1,2]\n").toList)).2 =
        [Event.text (("[1,2]\n").toList)] :=
  ⟨rfl, rfl, rfl, rfl, rfl⟩

/-- Claim C2 counterexample: with the maximum buffer size configured to 2,
feeding a single delimiter-free chunk of three characters leaves the entire
chunk in the pending buffer — longer than the configured maximum, and not
the last-maximum-many characters the claim asserts. -/
theorem claim2_counterexample :
    (dataHandler ⟨['\n'], 2, false⟩ [] (("aaa").toList)).1 = ("aaa").toList ∧
    (dataHandler ⟨['\n'], 2, false⟩ [] (("aaa").toList)).2 = [] ∧
    (dataHandler ⟨['\n'], 2, false⟩ [] (("aaa").toList)).1 ≠ ("aa").toList ∧
    ¬ (dataHandler ⟨['\n'], 2, false⟩ [] (("aaa").toList)).1.length ≤ 2 :=
  ⟨rfl, rfl, by decide, by decide⟩

/-- Claim C2 (amended): the pending buffer is bounded only lazily. A
delimiter-free chunk arriving at an empty buffer is stored whole (however
long) with no event emitted; the truncation to the most recent
maxLineLength characters is applied at the start of the next invocation,
once the non-empty buffer has been prepended and the combined length
exceeds the maximum. -/
theorem claim2_overflow_amended (cfg : Config) :
    (∀ c : List Char, splitOnStr cfg.EOL c = [c] → strEndsWith c cfg.EOL = false →
      dataHandler cfg [] c = (c, [])) ∧
    (∀ b d : List Char, b ≠ [] → cfg.maxLineLength < (b ++ d).length →
      dataHandler cfg b d =
        dataHandler cfg [] ((b ++ d).drop ((b ++ d).length - cfg.maxLineLength))) := by
  constructor
  · intro c h1 h2
    have ht : truncStep cfg [] c = c := by unfold truncStep; simp
    unfold dataHandler
    rw [ht, h1, h2]
    simp [loopRecords]
  · intro b d hb hover
    have ht : truncStep cfg b d = (b ++ d).drop ((b ++ d).length - cfg.maxLineLength) := by
      unfold truncStep
      rw [if_pos hb, if_pos hover]
    have ht2 : truncStep cfg [] ((b ++ d).drop ((b ++ d).length - cfg.maxLineLength)) =
        (b ++ d).drop ((b ++ d).length - cfg.maxLineLength) := by
      unfold truncStep; simp
    unfold dataHandler
    rw [ht, ht2]

/-- Witness for the amended claim C2, at a buffer of one character, a chunk
of two characters and a configured maximum of 2. -/
theorem claim2_overflow_amended_witness :
    (['a'] : List Char) ≠ [] ∧
    (2 : Nat) < ((['a'] ++ ("aa").toList)).length ∧
    dataHandler ⟨['\n'], 2, false⟩ ['a'] (("aa").toList) =
      dataHandler ⟨['\n'], 2, false⟩ []
        ((['a'] ++ ("aa").toList).drop ((['a'] ++ ("aa").toList).length - 2)) :=
  ⟨by decide, by decide,
    (claim2_overflow_amended ⟨['\n'], 2, false⟩).2 ['a'] (("aa").toList)
      (by decide) (by decide)⟩

/-- Claim C8: a serialization failure is not caught by write: the failure
propagates to the caller and nothing is forwarded to the output handle
(the written log is unchanged). -/
theorem claim8_write_error (cfg : Config) (ret : List (List Char) → List Char → Bool)
    (st : List (List Char)) (v : JsVal) (e : String)
    (h : jsStringify v = .error e) :
    write cfg ret st v = (.error e, st) := by
  unfold write
  rw [h]

/-- Witness for claim C8 at the cyclic value. -/
theorem claim8_write_error_witness :
    jsStringify JsVal.cyclic = Except.error "Converting circular structure to JSON" ∧
    write defaultConfig (fun _ _ => true) [] JsVal.cyclic =
      (Except.error "Converting circular structure to JSON", []) :=
  ⟨rfl, claim8_write_error defaultConfig (fun _ _ => true) [] JsVal.cyclic _ rfl⟩

/-- Claim C9: for every serializable value, write forwards exactly the
serialized text followed by the delimiter to the output handle's write
primitive (appending it to the written log) and answers exactly the
backpressure signal the primitive reports. -/
theorem claim9_write_forward (cfg : Config) (ret : List (List Char) → List Char → Bool)
    (st : List (List Char)) (v : JsonValue) :
    write cfg ret st (JsVal.val v) =
      (Except.ok (ret st (strVal v ++ cfg.EOL)), st ++ [strVal v ++ cfg.EOL]) := rfl

/-! ## Totality of the handler (claim C10) -/

theorem getLastD_irrel {α : Type} {l : List α} (h : l ≠ []) (a b : α) :
    l.getLastD a = l.getLastD b := by
  cases l with
  | nil => exact absurd rfl h
  | cons x xs => simp only [List.getLastD_cons]

theorem classifyRecordE_ok (cfg : Config) (r : List Char) (l : Bool) :
    classifyRecordE cfg r l = Except.ok (classifyRecord cfg r l) := by
  unfold classifyRecordE classifyRecord tryParse jsonParseExn
  by_cases hm : recordMatch r <;> cases h : jsonParse r <;>
    simp [hm, h] <;> split <;> rfl

theorem loopRecordsE_ok (cfg : Config) : ∀ rs, loopRecordsE cfg rs = Except.ok (loopRecords cfg rs)
  | [] => rfl
  | r :: rs => by
    unfold loopRecordsE loopRecords
    rw [classifyRecordE_ok, loopRecordsE_ok cfg rs]

/-- Claim C10: the chunk-arrival handler is total. With the decode attempt
modelled as a guarded fallible call, the handler returns normally with the
events of the total model for every configuration, pending-buffer state and
chunk: the decode failure becomes an error event and no exception
escapes. -/
theorem claim10_handler_total (cfg : Config) (b chunk : List Char) :
    dataHandlerE cfg b chunk = Except.ok (dataHandler cfg b chunk) := by
  unfold dataHandlerE dataHandler
  by_cases hse : strEndsWith (truncStep cfg b chunk) cfg.EOL <;>
    simp [hse, loopRecordsE_ok]

/-! ## End-of-input with a dangling partial line (claim C7) -/

/-- Claim C7: when the input signals end-of-input after a chunk lacking a
trailing delimiter (here: a delimiter-free chunk), exactly one end event is
emitted and the non-empty pending buffer is dropped silently — no error,
text or json event for the unterminated partial line. -/
theorem claim7_end_drop (cfg : Config) (chunk : List Char)
    (h1 : splitOnStr cfg.EOL chunk = [chunk])
    (h2 : strEndsWith chunk cfg.EOL = false) :
    runChunks cfg [] [chunk] = (chunk, []) ∧
    runStreamEvents cfg [chunk] = [Event.streamEnd] := by
  have ht : truncStep cfg [] chunk = chunk := by unfold truncStep; simp
  have hd : dataHandler cfg [] chunk = (chunk, []) := by
    unfold dataHandler
    rw [ht, h1, h2]
    simp [loopRecords]
  refine ⟨?_, ?_⟩
  · simp [runChunks, hd]
  · simp [runStreamEvents, runChunks, hd]

/-- Witness for claim C7 at a three-character delimiter-free chunk. -/
theorem claim7_end_drop_witness :
    splitOnStr defaultConfig.EOL (("abc").toList) = [("abc").toList] ∧
    strEndsWith (("abc").toList) defaultConfig.EOL = false ∧
    runStreamEvents defaultConfig [("abc").toList] = [Event.streamEnd] :=
  ⟨rfl, rfl, (claim7_end_drop defaultConfig (("abc").toList) rfl rfl).2⟩

/-! ## Partial-tail retention (claim C4) -/

theorem splitStrAux_ne_nil (sep : List Char) :
    ∀ (fuel : Nat) (acc s : List Char), splitStrAux sep fuel acc s ≠ [] := by
  intro fuel
  induction fuel with
  | zero => intro acc s; cases s <;> simp [splitStrAux]
  | succ f ih =>
    intro acc s
    cases s with
    | nil => simp [splitStrAux]
    | cons x xs =>
      unfold splitStrAux
      by_cases h : sep.isPrefixOf (x :: xs) <;> simp [h, ih]

theorem getLastD_splitStrAux_suffix (sep : List Char) :
    ∀ (fuel : Nat) (acc s : List Char),
      (splitStrAux sep fuel acc s).getLastD [] <:+ acc.reverse ++ s := by
  intro fuel
  induction fuel with
  | zero =>
    intro acc s
    cases s with
    | nil => simp [splitStrAux]
    | cons x xs => simp [splitStrAux]
  | succ f ih =>
    intro acc s
    cases s with
    | nil => simp [splitStrAux]
    | cons x xs =>
      unfold splitStrAux
      by_cases h : sep.isPrefixOf (x :: xs)
      · rw [if_pos h]
        have hne := splitStrAux_ne_nil sep f [] ((x :: xs).drop sep.length)
        have hrec := ih [] ((x :: xs).drop sep.length)
        rw [List.getLastD_cons, getLastD_irrel hne acc.reverse []]
        simp only [List.reverse_nil, List.nil_append] at hrec
        exact hrec.trans ((List.drop_suffix _ _).trans (List.suffix_append _ _))
      · rw [if_neg h]
        have hrec := ih (x :: acc) xs
        rw [List.reverse_cons, List.append_assoc] at hrec
        simpa using hrec

/-- Claim C4: when the combined data (the previous pending buffer prepended
to the chunk) does not end with the delimiter, the handler stores the
trailing partial segment — the last part of the split, a suffix of the
data — as the new pending buffer, and its events come from the remaining
records only; when the data ends exactly on the delimiter, the pending
buffer is left empty. -/
theorem claim4_partial_tail (cfg : Config) (b chunk : List Char) :
    (strEndsWith (truncStep cfg b chunk) cfg.EOL = false →
      (dataHandler cfg b chunk).1 =
          (splitOnStr cfg.EOL (truncStep cfg b chunk)).getLastD [] ∧
        (dataHandler cfg b chunk).1 <:+ truncStep cfg b chunk ∧
        (dataHandler cfg b chunk).2 =
          loopRecords cfg (splitOnStr cfg.EOL (truncStep cfg b chunk)).dropLast) ∧
    (strEndsWith (truncStep cfg b chunk) cfg.EOL = true →
      (dataHandler cfg b chunk).1 = []) := by
  constructor
  · intro hend
    have hsep : cfg.EOL ≠ [] := by
      intro he
      rw [he] at hend
      simp [strEndsWith] at hend
    have hsuf : (splitOnStr cfg.EOL (truncStep cfg b chunk)).getLastD [] <:+
        truncStep cfg b chunk := by
      unfold splitOnStr
      rw [if_neg hsep]
      simpa using getLastD_splitStrAux_suffix cfg.EOL (truncStep cfg b chunk).length []
        (truncStep cfg b chunk)
    unfold dataHandler
    rw [hend]
    exact ⟨rfl, by simpa using hsuf, rfl⟩
  · intro hend
    unfold dataHandler
    rw [hend]
    simp

/-- Witness for claim C4 at a delimiter-free two-character chunk. -/
theorem claim4_partial_tail_witness :
    strEndsWith (truncStep defaultConfig [] (("ab").toList)) defaultConfig.EOL = false ∧
    (dataHandler defaultConfig [] (("ab").toList)).1 =
      (splitOnStr defaultConfig.EOL (truncStep defaultConfig [] (("ab").toList))).getLastD [] :=
  ⟨rfl, ((claim4_partial_tail defaultConfig [] (("ab").toList)).1 rfl).1⟩

/-! ## Single-character split: structure lemmas (towards claim C1) -/

theorem getLastD_mem {α : Type} : ∀ {l : List α}, l ≠ [] → ∀ d, l.getLastD d ∈ l := by
  intro l
  induction l with
  | nil => intro h; exact absurd rfl h
  | cons x xs ih =>
    intro _ d
    rw [List.getLastD_cons]
    cases hx : xs with
    | nil => simp
    | cons y ys =>
      have := ih (by simp [hx]) x
      rw [hx] at this
      exact List.mem_cons_of_mem _ this

theorem dropLast_append_getLastD {α : Type} :
    ∀ {l : List α}, l ≠ [] → ∀ d, l.dropLast ++ [l.getLastD d] = l := by
  intro l
  induction l with
  | nil => intro h; exact absurd rfl h
  | cons x xs ih =>
    intro _ d
    rw [List.getLastD_cons]
    cases hx : xs with
    | nil => simp
    | cons y ys =>
      rw [hx] at ih
      rw [List.dropLast_cons₂, getLastD_irrel (l := y :: ys) (by simp) x d,
        List.cons_append, ih (by simp) d]

theorem getLastD_append_of_ne_nil {α : Type} (d : α) :
    ∀ (l₁ : List α) {l₂ : List α}, l₂ ≠ [] → (l₁ ++ l₂).getLastD d = l₂.getLastD d := by
  intro l₁
  induction l₁ with
  | nil => intro l₂ _; rfl
  | cons x xs ih =>
    intro l₂ h2
    rw [List.cons_append, List.getLastD_cons,
      getLastD_irrel (by simp [h2]) x d, ih h2]

theorem splitChP_of_chFree (ch : Char) :
    ∀ {u : List Char}, ch ∉ u → splitChP ch u = (u, []) := by
  intro u
  induction u with
  | nil => intro _; rfl
  | cons x xs ih =>
    intro h
    have hx : ¬ x = ch := fun e => h (e ▸ List.mem_cons_self x xs)
    have hxs : ch ∉ xs := fun m => h (List.mem_cons_of_mem _ m)
    simp [splitChP, hx, ih hxs]

theorem splitChP_chFree_append_single (ch : Char) :
    ∀ {u : List Char}, ch ∉ u → splitChP ch (u ++ [ch]) = (u, [[]]) := by
  intro u
  induction u with
  | nil => intro _; simp [splitChP]
  | cons x xs ih =>
    intro h
    have hx : ¬ x = ch := fun e => h (e ▸ List.mem_cons_self x xs)
    have hxs : ch ∉ xs := fun m => h (List.mem_cons_of_mem _ m)
    simp [splitChP, hx, ih hxs]

theorem notMem_of_mem_chParts (ch : Char) :
    ∀ (s : List Char) (p : List Char), p ∈ chParts ch s → ch ∉ p := by
  intro s
  induction s with
  | nil =>
    intro p hp
    simp [chParts, splitChP] at hp
    simp [hp]
  | cons x xs ih =>
    intro p hp
    by_cases hx : x = ch
    · subst hx
      simp [chParts, splitChP] at hp
      rcases hp with h | h | h
      · simp [h]
      · exact ih _ (by simp [chParts, h])
      · exact ih _ (List.mem_cons_of_mem _ (by simpa [chParts] using h))
    · simp [chParts, splitChP, hx] at hp
      rcases hp with h | h
      · subst h
        intro hm
        rcases List.mem_cons.mp hm with e | m
        · exact hx e.symm
        · exact ih _ (List.mem_cons_self _ _) m
      · exact ih _ (List.mem_cons_of_mem _ h)

theorem tail_ne_of_mem (ch : Char) : ∀ {s : List Char}, ch ∈ s → (splitChP ch s).2 ≠ [] := by
  intro s
  induction s with
  | nil => intro h; cases h
  | cons x xs ih =>
    intro h
    by_cases hx : x = ch
    · simp [splitChP, hx]
    · have hm : ch ∈ xs := by
        rcases List.mem_cons.mp h with e | m
        · exact absurd e.symm hx
        · exact m
      simp [splitChP, hx]
      exact ih hm

theorem chParts_cons_eq (ch : Char) (xs : List Char) :
    chParts ch (ch :: xs) = [] :: chParts ch xs := by
  simp [chParts, splitChP]

theorem chParts_cons_ne (ch x : Char) (hx : ¬ x = ch) (xs : List Char) :
    chParts ch (x :: xs) = (x :: (splitChP ch xs).1) :: (splitChP ch xs).2 := by
  simp [chParts, splitChP, hx]

theorem doneParts_cons_eq (ch : Char) (xs : List Char) :
    doneParts ch (ch :: xs) = [] :: doneParts ch xs := by
  unfold doneParts
  rw [chParts_cons_eq]
  show ([] :: ((splitChP ch xs).1 :: (splitChP ch xs).2)).dropLast = _
  rw [List.dropLast_cons₂]
  rfl

theorem lastPart_cons_eq (ch : Char) (xs : List Char) :
    lastPart ch (ch :: xs) = lastPart ch xs := by
  unfold lastPart
  rw [chParts_cons_eq]
  show ([] :: ((splitChP ch xs).1 :: (splitChP ch xs).2)).getLastD [] = _
  rw [List.getLastD_cons]
  rfl

theorem chParts_append (ch : Char) :
    ∀ (s d : List Char),
      chParts ch (s ++ d) = doneParts ch s ++ chParts ch (lastPart ch s ++ d) := by
  intro s
  induction s with
  | nil =>
    intro d
    have h1 : doneParts ch [] = [] := rfl
    have h2 : lastPart ch [] = [] := rfl
    rw [h1, h2]
    simp
  | cons x xs ih =>
    intro d
    by_cases hx : x = ch
    · rw [hx]
      rw [show (ch :: xs) ++ d = ch :: (xs ++ d) from rfl]
      rw [chParts_cons_eq, doneParts_cons_eq, lastPart_cons_eq, ih d]
      rfl
    · rcases hq : (splitChP ch xs).2 with _ | ⟨q0, qt⟩
      · -- the split of xs is a single part, so x :: xs is delimiter-free
        have hfree_xs : ch ∉ xs := fun hm => (tail_ne_of_mem ch hm) hq
        have hfree : ch ∉ x :: xs := by
          intro hm
          rcases List.mem_cons.mp hm with e | m
          · exact hx e.symm
          · exact hfree_xs m
        have h1 : splitChP ch (x :: xs) = (x :: xs, []) := splitChP_of_chFree ch hfree
        have hd : doneParts ch (x :: xs) = [] := by
          unfold doneParts chParts
          rw [h1]
          rfl
        have hl : lastPart ch (x :: xs) = x :: xs := by
          unfold lastPart chParts
          rw [h1]
          rfl
        rw [hd, hl]
        simp
      · -- the split of xs has at least two parts
        have h1 : splitChP ch (x :: xs) = (x :: (splitChP ch xs).1, q0 :: qt) := by
          simp [splitChP, hx, hq]
        have hdxs : doneParts ch xs = (splitChP ch xs).1 :: (q0 :: qt).dropLast := by
          unfold doneParts chParts
          rw [hq, List.dropLast_cons₂]
        have hlxs : lastPart ch xs = (q0 :: qt).getLastD [] := by
          unfold lastPart chParts
          rw [hq, List.getLastD_cons]
          exact getLastD_irrel (by simp) _ _
        have hdx : doneParts ch (x :: xs) =
            (x :: (splitChP ch xs).1) :: (q0 :: qt).dropLast := by
          unfold doneParts chParts
          rw [h1, List.dropLast_cons₂]
        have hlx : lastPart ch (x :: xs) = (q0 :: qt).getLastD [] := by
          unfold lastPart chParts
          rw [h1, List.getLastD_cons]
          exact getLastD_irrel (by simp) _ _
        have hihc : (splitChP ch (xs ++ d)).1 :: (splitChP ch (xs ++ d)).2 =
            (splitChP ch xs).1 ::
              ((q0 :: qt).dropLast ++ chParts ch ((q0 :: qt).getLastD [] ++ d)) := by
          have h := ih d
          rw [hdxs, hlxs, List.cons_append] at h
          exact h
        have head_eq : (splitChP ch (xs ++ d)).1 = (splitChP ch xs).1 :=
          (List.cons_eq_cons.mp hihc).1
        have tail_eq : (splitChP ch (xs ++ d)).2 =
            (q0 :: qt).dropLast ++ chParts ch ((q0 :: qt).getLastD [] ++ d) :=
          (List.cons_eq_cons.mp hihc).2
        rw [show (x :: xs) ++ d = x :: (xs ++ d) from rfl]
        rw [chParts_cons_ne ch x hx (xs ++ d), head_eq, tail_eq, hdx, hlx,
          List.cons_append]

theorem doneParts_append (ch : Char) (s d : List Char) :
    doneParts ch (s ++ d) = doneParts ch s ++ doneParts ch (lastPart ch s ++ d) := by
  have h := congrArg List.dropLast (chParts_append ch s d)
  rw [List.dropLast_append_of_ne_nil _ (by simp [chParts])] at h
  exact h

theorem lastPart_append (ch : Char) (s d : List Char) :
    lastPart ch (s ++ d) = lastPart ch (lastPart ch s ++ d) := by
  have h := congrArg (fun l : List (List Char) => l.getLastD ([] : List Char))
    (chParts_append ch s d)
  simp only at h
  rw [getLastD_append_of_ne_nil _ _ (by simp [chParts])] at h
  exact h

/-! ## The split performed by the handler agrees with the split view -/

theorem splitStrAux_single (ch : Char) :
    ∀ (fuel : Nat) (acc s : List Char), s.length ≤ fuel →
      splitStrAux [ch] fuel acc s =
        (acc.reverse ++ (splitChP ch s).1) :: (splitChP ch s).2 := by
  intro fuel
  induction fuel with
  | zero =>
    intro acc s hs
    have : s = [] := by
      cases s with
      | nil => rfl
      | cons x xs => simp at hs
    subst this
    simp [splitStrAux, splitChP]
  | succ f ih =>
    intro acc s hs
    cases s with
    | nil => simp [splitStrAux, splitChP]
    | cons x xs =>
      have hlen : xs.length ≤ f := by simpa using hs
      by_cases hx : x = ch
      · have hpre : [ch].isPrefixOf (x :: xs) = true := by
          simp [List.isPrefixOf_cons₂, List.isPrefixOf, hx]
        unfold splitStrAux
        rw [if_pos hpre]
        rw [show List.drop ([ch] : List Char).length (x :: xs) = xs from rfl]
        rw [ih [] xs hlen]
        simp [splitChP, hx]
      · have hpre : ¬ ([ch].isPrefixOf (x :: xs) = true) := by
          simp [List.isPrefixOf_cons₂, List.isPrefixOf]
          exact fun e => hx e.symm
        unfold splitStrAux
        rw [if_neg hpre]
        rw [ih (x :: acc) xs hlen]
        simp [splitChP, hx]

theorem splitOnStr_single (ch : Char) (s : List Char) :
    splitOnStr [ch] s = chParts ch s := by
  unfold splitOnStr
  rw [if_neg (by simp)]
  rw [splitStrAux_single ch s.length [] s (Nat.le_refl _)]
  simp [chParts]

/-! ## Suffix test for a single-character delimiter -/

theorem endsWith_append_single (ch : Char) (r : List Char) :
    strEndsWith (r ++ [ch]) [ch] = true := by
  unfold strEndsWith
  rw [decide_eq_true_iff]
  rw [show (r ++ [ch]).length - ([ch] : List Char).length = r.length by simp]
  rw [List.drop_left]

theorem notMem_not_endsWith (ch : Char) (r : List Char) (h : ch ∉ r) :
    strEndsWith r [ch] = false := by
  unfold strEndsWith
  rw [decide_eq_false_iff_not]
  intro hEq
  exact h (List.drop_subset _ _ (hEq ▸ List.mem_singleton_self ch))

theorem lastPart_chFree_append_single (ch : Char) {u : List Char} (hfree : ch ∉ u) :
    lastPart ch (u ++ [ch]) = [] := by
  unfold lastPart chParts
  rw [splitChP_chFree_append_single ch hfree]
  rfl

theorem ends_lastPart (ch : Char) (s : List Char)
    (h : strEndsWith s [ch] = true) : lastPart ch s = [] := by
  have hEq : s.drop (s.length - 1) = [ch] := by
    have h' := h
    unfold strEndsWith at h'
    rw [decide_eq_true_iff] at h'
    simpa using h'
  have hsplit : s = s.take (s.length - 1) ++ [ch] := by
    conv_lhs => rw [← List.take_append_drop (s.length - 1) s]
    rw [hEq]
  have hfree : ch ∉ lastPart ch (s.take (s.length - 1)) :=
    notMem_of_mem_chParts ch _ _ (getLastD_mem (by simp [chParts]) [])
  conv_lhs => rw [hsplit]
  rw [lastPart_append]
  exact lastPart_chFree_append_single ch hfree

/-! ## Normalization of the handler's events (towards claim C1) -/

theorem hasContent_ne_nil {r : List Char} (h : hasContent r = true) : r ≠ [] := by
  intro e
  subst e
  simp [hasContent] at h

theorem norm_classify_mid (cfg : Config) (ch : Char) (hE : cfg.EOL = [ch])
    (hpw : cfg.preserveWhitespace = false) (r : List Char) :
    (classifyRecord cfg r false).map (stripEolText cfg) = classifyRecord cfg r true := by
  unfold classifyRecord
  by_cases hm : recordMatch r = true
  · rw [if_pos hm, if_pos hm]
    cases h : jsonParse r with
    | none => rfl
    | some v =>
      show List.map (stripEolText cfg) (if jsTruthy v = true then [Event.json v] else [])
          = (if jsTruthy v = true then [Event.json v] else [])
      by_cases ht : jsTruthy v = true
      · simp [ht, stripEolText]
      · simp [ht, stripEolText]
  · rw [if_neg hm, if_neg hm, hpw]
    by_cases hc : hasContent r = true
    · have hor : ((false || hasContent r) = true) := by simp [hc]
      rw [if_pos hor, if_pos hor]
      have hr : r ≠ [] := hasContent_ne_nil hc
      rw [show (if (false : Bool) = true then ([] : List Char) else cfg.EOL) = [ch] by
            rw [if_neg (by simp)]; exact hE]
      rw [show (if (true : Bool) = true then ([] : List Char) else cfg.EOL) = [] from rfl]
      rw [if_pos (by simp : (r ++ [ch]).length ≠ 0)]
      rw [if_pos (by simpa using hr : (r ++ ([] : List Char)).length ≠ 0)]
      simp only [List.map_cons, List.map_nil, stripEolText, hE]
      rw [if_pos (endsWith_append_single ch r)]
      rw [show (r ++ [ch]).length - ([ch] : List Char).length = r.length by simp]
      rw [List.take_left, List.append_nil]
    · have hor : ¬ ((false || hasContent r) = true) := by simp [hc]
      rw [if_neg hor, if_neg hor]
      rfl

theorem norm_classify_last (cfg : Config) (ch : Char) (hE : cfg.EOL = [ch])
    (r : List Char) (hfree : ch ∉ r) :
    (classifyRecord cfg r true).map (stripEolText cfg) = classifyRecord cfg r true := by
  unfold classifyRecord
  by_cases hm : recordMatch r = true
  · rw [if_pos hm]
    cases h : jsonParse r with
    | none => rfl
    | some v =>
      show List.map (stripEolText cfg) (if jsTruthy v = true then [Event.json v] else [])
          = (if jsTruthy v = true then [Event.json v] else [])
      by_cases ht : jsTruthy v = true
      · simp [ht, stripEolText]
      · simp [ht, stripEolText]
  · rw [if_neg hm]
    by_cases hor : ((cfg.preserveWhitespace || hasContent r) = true)
    · rw [if_pos hor]
      rw [show (if (true : Bool) = true then ([] : List Char) else cfg.EOL) = [] from rfl]
      by_cases hlen : (r ++ ([] : List Char)).length ≠ 0
      · rw [if_pos hlen]
        simp only [List.map_cons, List.map_nil, stripEolText, hE, List.append_nil]
        rw [if_neg (by rw [notMem_not_endsWith ch r hfree]; simp)]
      · rw [if_neg hlen]
        rfl
    · rw [if_neg hor]
      rfl

theorem lastStyle_append (cfg : Config) :
    ∀ (a b : List (List Char)),
      lastStyleEvents cfg (a ++ b) = lastStyleEvents cfg a ++ lastStyleEvents cfg b := by
  intro a b
  induction a with
  | nil => simp [lastStyleEvents]
  | cons r rs ih => simp [lastStyleEvents, ih]

theorem norm_loopRecords (cfg : Config) (ch : Char) (hE : cfg.EOL = [ch])
    (hpw : cfg.preserveWhitespace = false) :
    ∀ (rs : List (List Char)), (∀ r ∈ rs, ch ∉ r) →
      normEvents cfg (loopRecords cfg rs) = lastStyleEvents cfg rs := by
  intro rs
  induction rs with
  | nil => intro _; rfl
  | cons r rest ih =>
    intro hall
    unfold loopRecords lastStyleEvents normEvents
    rw [List.map_append]
    cases hrest : rest with
    | nil =>
      simp only [List.isEmpty_nil]
      rw [norm_classify_last cfg ch hE r (hall r (List.mem_cons_self _ _))]
      rfl
    | cons a b =>
      simp only [List.isEmpty_cons]
      rw [norm_classify_mid cfg ch hE hpw r]
      have := ih (fun x hx => hall x (List.mem_cons_of_mem _ hx))
      rw [hrest] at this
      unfold normEvents at this
      rw [this]

/-! ## One handler step, normalized (towards claim C1) -/

theorem classify_nil_skip (cfg : Config) (hpw : cfg.preserveWhitespace = false) :
    classifyRecord cfg [] true = [] := by
  unfold classifyRecord
  rw [if_neg (by simp [recordMatch]), hpw]
  simp [hasContent]

theorem dataHandler_norm (cfg : Config) (ch : Char) (hE : cfg.EOL = [ch])
    (hpw : cfg.preserveWhitespace = false) (b d : List Char)
    (ht : b = [] ∨ (b ++ d).length ≤ cfg.maxLineLength) :
    (dataHandler cfg b d).1 = lastPart ch (b ++ d) ∧
      normEvents cfg (dataHandler cfg b d).2 =
        lastStyleEvents cfg (doneParts ch (b ++ d)) := by
  have htr : truncStep cfg b d = b ++ d := by
    unfold truncStep
    by_cases hb : b = []
    · subst hb; simp
    · rw [if_pos hb, if_neg]
      rcases ht with h | h
      · exact absurd h hb
      · omega
  have hrec : splitOnStr cfg.EOL (truncStep cfg b d) = chParts ch (b ++ d) := by
    rw [htr, hE, splitOnStr_single]
  have hsplit_full : chParts ch (b ++ d) =
      doneParts ch (b ++ d) ++ [lastPart ch (b ++ d)] :=
    (dropLast_append_getLastD (l := chParts ch (b ++ d)) (by simp [chParts]) []).symm
  cases hend : strEndsWith (truncStep cfg b d) cfg.EOL with
  | true =>
    have hlast : lastPart ch (b ++ d) = [] := by
      apply ends_lastPart
      rw [htr, hE] at hend
      exact hend
    unfold dataHandler
    rw [hend]
    simp only [if_true]
    constructor
    · exact hlast.symm
    · rw [hrec]
      rw [norm_loopRecords cfg ch hE hpw _ (fun r hr => notMem_of_mem_chParts ch _ r hr)]
      rw [hsplit_full, hlast, lastStyle_append]
      simp [lastStyleEvents, classify_nil_skip cfg hpw]
  | false =>
    unfold dataHandler
    rw [hend]
    simp only [Bool.false_eq_true, if_false]
    constructor
    · rw [hrec]; rfl
    · rw [hrec]
      have hdone : (chParts ch (b ++ d)).dropLast = doneParts ch (b ++ d) := rfl
      rw [hdone]
      apply norm_loopRecords cfg ch hE hpw
      intro r hr
      exact notMem_of_mem_chParts ch _ r (List.dropLast_subset _ hr)

/-! ## Chunked runs, normalized (claim C1) -/

theorem runChunks_norm (cfg : Config) (ch : Char) (hE : cfg.EOL = [ch])
    (hpw : cfg.preserveWhitespace = false) :
    ∀ (cs : List (List Char)) (b : List Char), ch ∉ b →
      noTruncRunB cfg b cs = true →
      (runChunks cfg b cs).1 = lastPart ch (b ++ concatChunks cs) ∧
        normEvents cfg (runChunks cfg b cs).2 =
          lastStyleEvents cfg (doneParts ch (b ++ concatChunks cs)) := by
  intro cs
  induction cs with
  | nil =>
    intro b hfree _
    have hparts : splitChP ch b = (b, []) := splitChP_of_chFree ch hfree
    constructor
    · simp [runChunks, concatChunks, lastPart, chParts, hparts]
    · simp [runChunks, concatChunks, doneParts, chParts, hparts, normEvents, lastStyleEvents]
  | cons c cs ih =>
    intro b hfree hrun
    have hrun' := hrun
    unfold noTruncRunB at hrun'
    rw [Bool.and_eq_true] at hrun'
    obtain ⟨h1, h2⟩ := hrun'
    have ht : b = [] ∨ (b ++ c).length ≤ cfg.maxLineLength := by
      rw [Bool.or_eq_true] at h1
      rcases h1 with h | h
      · exact Or.inl (List.isEmpty_iff.mp h)
      · exact Or.inr (by simpa using h)
    have hstep := dataHandler_norm cfg ch hE hpw b c ht
    have hfree' : ch ∉ (dataHandler cfg b c).1 := by
      rw [hstep.1]
      exact notMem_of_mem_chParts ch _ _ (getLastD_mem (by simp [chParts]) [])
    have hih := ih (dataHandler cfg b c).1 hfree' h2
    have hcat : concatChunks (c :: cs) = c ++ concatChunks cs := rfl
    constructor
    · show (runChunks cfg (dataHandler cfg b c).1 cs).1 = _
      rw [hih.1, hstep.1, hcat, ← List.append_assoc, lastPart_append ch (b ++ c)]
    · show normEvents cfg ((dataHandler cfg b c).2 ++ (runChunks cfg (dataHandler cfg b c).1 cs).2) = _
      unfold normEvents
      rw [List.map_append]
      have e1 : List.map (stripEolText cfg) (dataHandler cfg b c).2 =
          lastStyleEvents cfg (doneParts ch (b ++ c)) := hstep.2
      have e2 : List.map (stripEolText cfg) (runChunks cfg (dataHandler cfg b c).1 cs).2 =
          lastStyleEvents cfg (doneParts ch ((dataHandler cfg b c).1 ++ concatChunks cs)) :=
        hih.2
      rw [e1, e2, hstep.1, hcat, ← List.append_assoc,
        doneParts_append ch (b ++ c) (concatChunks cs), lastStyle_append]

/-- Claim C1 counterexample: splitting the two-line input between the two
chunks shown makes the first text event lose its re-appended trailing
delimiter, so the event sequence differs from single-chunk feeding even
though the concatenation is the same delimiter-terminated line sequence. -/
theorem claim1_counterexample :
    concatChunks [("hello\nwor").toList, ("ld\n").toList] = ("hello\nworld\n").toList ∧
    (runChunks defaultConfig [] [("hello\nwor").toList, ("ld\n").toList]).2 =
      [Event.text (("hello").toList), Event.text (("world\n").toList)] ∧
    (runChunks defaultConfig [] [("hello\nworld\n").toList]).2 =
      [Event.text (("hello\n").toList), Event.text (("world\n").toList)] ∧
    (runChunks defaultConfig [] [("hello\nwor").toList, ("ld\n").toList]).2 ≠
      (runChunks defaultConfig [] [("hello\nworld\n").toList]).2 := by
  refine ⟨rfl, rfl, rfl, ?_⟩
  intro h
  have h' : [Event.text (("hello").toList), Event.text (("world\n").toList)] =
      [Event.text (("hello\n").toList), Event.text (("world\n").toList)] := by
    calc [Event.text (("hello").toList), Event.text (("world\n").toList)]
        = (runChunks defaultConfig [] [("hello\nwor").toList, ("ld\n").toList]).2 := rfl
      _ = (runChunks defaultConfig [] [("hello\nworld\n").toList]).2 := h
      _ = [Event.text (("hello\n").toList), Event.text (("world\n").toList)] := rfl
  injection h' with h1 h2
  injection h1 with h3
  exact absurd h3 (by decide)

/-- Claim C1 (amended): for a single-character delimiter, whitespace
preservation disabled, and a chunking that never triggers the overflow
truncation, feeding a delimiter-terminated sequence of delimiter-free
lines in any chunking produces the same classified-line events as feeding
the whole concatenation as one chunk, up to stripping the re-appended
trailing delimiter from text payloads (the payload of a text event carries
the delimiter exactly when its line is not the last of its batch, which
depends on the chunking). -/
theorem claim1_reassembly_amended (ch : Char) (cfg : Config)
    (hE : cfg.EOL = [ch]) (hpw : cfg.preserveWhitespace = false)
    (ws cs : List (List Char))
    (_hws : ∀ L ∈ ws, ch ∉ L)
    (_hcat : concatChunks cs = joinLines ch ws)
    (hnt : noTruncRunB cfg [] cs = true) :
    normEvents cfg (runChunks cfg [] cs).2 =
      normEvents cfg (runChunks cfg [] [concatChunks cs]).2 := by
  have hchunked := runChunks_norm cfg ch hE hpw cs [] (by simp) hnt
  have hone : noTruncRunB cfg [] [concatChunks cs] = true := by
    unfold noTruncRunB noTruncRunB
    simp
  have hsingle := runChunks_norm cfg ch hE hpw [concatChunks cs] [] (by simp) hone
  rw [hchunked.2, hsingle.2]
  have : concatChunks [concatChunks cs] = concatChunks cs := by
    simp [concatChunks]
  rw [this]

/-- Witness for the amended claim C1 at the two-chunk split of the
two-line input from the counterexample. -/
theorem claim1_reassembly_amended_witness :
    (∀ L ∈ [("hello").toList, ("world").toList], '\n' ∉ L) ∧
    concatChunks [("hello\nwor").toList, ("ld\n").toList] =
      joinLines '\n' [("hello").toList, ("world").toList] ∧
    noTruncRunB defaultConfig [] [("hello\nwor").toList, ("ld\n").toList] = true ∧
    normEvents defaultConfig
        (runChunks defaultConfig [] [("hello\nwor").toList, ("ld\n").toList]).2 =
      normEvents defaultConfig
        (runChunks defaultConfig []
          [concatChunks [("hello\nwor").toList, ("ld\n").toList]]).2 :=
  ⟨by decide, rfl, rfl,
    claim1_reassembly_amended '\n' defaultConfig rfl rfl
      [("hello").toList, ("world").toList]
      [("hello\nwor").toList, ("ld\n").toList]
      (by decide) rfl rfl⟩

/-! ## Round trip of the modelled serializer and decoder (towards claim C6) -/

theorem stripLit_append : ∀ (l s : List Char), stripLit l (l ++ s) = some s := by
  intro l
  induction l with
  | nil => intro s; rfl
  | cons c t ih => intro s; simp [stripLit, ih]

theorem digitChar_isDigit (d : Nat) : (digitChar d).isDigit = true := by
  unfold digitChar
  split_ifs <;> decide

theorem charVal_digitChar {d : Nat} (h : d < 10) : charVal (digitChar d) = d := by
  interval_cases d <;> decide

theorem natDigitsAux_lt10 : ∀ (fuel n d : Nat), d ∈ natDigitsAux fuel n → d < 10 := by
  intro fuel
  induction fuel with
  | zero => intro n d h; simp [natDigitsAux] at h
  | succ f ih =>
    intro n d h
    unfold natDigitsAux at h
    by_cases hn : n = 0
    · simp [hn] at h
    · rw [if_neg hn] at h
      rcases List.mem_cons.mp h with e | m
      · subst e
        exact Nat.mod_lt _ (by omega)
      · exact ih _ _ m

theorem ofLE_natDigitsAux : ∀ (fuel n : Nat), n ≤ fuel → ofLE (natDigitsAux fuel n) = n := by
  intro fuel
  induction fuel with
  | zero =>
    intro n h
    have hn : n = 0 := by omega
    subst hn
    rfl
  | succ f ih =>
    intro n h
    unfold natDigitsAux
    by_cases hn : n = 0
    · simp [hn, ofLE]
    · rw [if_neg hn]
      show n % 10 + 10 * ofLE (natDigitsAux f (n / 10)) = n
      rw [ih (n / 10) (by omega)]
      omega

theorem natChars_ne_nil (n : Nat) : natChars n ≠ [] := by
  unfold natChars
  by_cases h : n = 0
  · simp [h]
  · rw [if_neg h]
    cases n with
    | zero => exact absurd rfl h
    | succ m => simp [natDigitsAux]

theorem natChars_all_isDigit (n : Nat) : ∀ c ∈ natChars n, c.isDigit = true := by
  unfold natChars
  by_cases h : n = 0
  · rw [if_pos h]
    intro c hc
    rw [List.mem_singleton.mp hc]
    decide
  · rw [if_neg h]
    intro c hc
    obtain ⟨d, _, rfl⟩ := List.mem_map.mp hc
    exact digitChar_isDigit d

theorem natChars_head_digit (n : Nat) :
    ∃ c cs, natChars n = c :: cs ∧ c.isDigit = true := by
  cases hn : natChars n with
  | nil => exact absurd hn (natChars_ne_nil n)
  | cons c cs =>
    exact ⟨c, cs, rfl, natChars_all_isDigit n c (by rw [hn]; exact List.mem_cons_self _ _)⟩

theorem takeWhile_all_append (p : Char → Bool) :
    ∀ (xs ys : List Char), (∀ x ∈ xs, p x = true) →
      (xs ++ ys).takeWhile p = xs ++ ys.takeWhile p := by
  intro xs
  induction xs with
  | nil => intro ys _; rfl
  | cons x t ih =>
    intro ys h
    rw [List.cons_append, List.takeWhile_cons, if_pos (h x (List.mem_cons_self _ _)),
      ih ys (fun y hy => h y (List.mem_cons_of_mem _ hy))]
    rfl

theorem dropWhile_all_append (p : Char → Bool) :
    ∀ (xs ys : List Char), (∀ x ∈ xs, p x = true) →
      (xs ++ ys).dropWhile p = ys.dropWhile p := by
  intro xs
  induction xs with
  | nil => intro ys _; rfl
  | cons x t ih =>
    intro ys h
    rw [List.cons_append, List.dropWhile_cons, if_pos (h x (List.mem_cons_self _ _)),
      ih ys (fun y hy => h y (List.mem_cons_of_mem _ hy))]

theorem takeWhile_isDigit_noDigitHead {rest : List Char} (h : noDigitHead rest = true) :
    rest.takeWhile Char.isDigit = [] := by
  cases rest with
  | nil => rfl
  | cons c t =>
    unfold noDigitHead at h
    rw [Bool.not_eq_true'] at h
    rw [List.takeWhile_cons, if_neg (by simp [h])]

theorem dropWhile_isDigit_noDigitHead {rest : List Char} (h : noDigitHead rest = true) :
    rest.dropWhile Char.isDigit = rest := by
  cases rest with
  | nil => rfl
  | cons c t =>
    unfold noDigitHead at h
    rw [Bool.not_eq_true'] at h
    rw [List.dropWhile_cons, if_neg (by simp [h])]

theorem foldl_digitChars :
    ∀ (l : List Nat) (a : Nat), (∀ d ∈ l, d < 10) →
      (l.map digitChar).foldl (fun x c => 10 * x + charVal c) a =
        l.foldl (fun x d => 10 * x + d) a := by
  intro l
  induction l with
  | nil => intro a _; rfl
  | cons d t ih =>
    intro a h
    simp only [List.map_cons, List.foldl_cons]
    rw [charVal_digitChar (h d (List.mem_cons_self _ _))]
    exact ih _ (fun x hx => h x (List.mem_cons_of_mem _ hx))

theorem foldl_rev_ofLE :
    ∀ (l : List Nat) (a : Nat),
      l.reverse.foldl (fun x d => 10 * x + d) a = a * 10 ^ l.length + ofLE l := by
  intro l
  induction l with
  | nil => intro a; simp [ofLE]
  | cons d t ih =>
    intro a
    rw [List.reverse_cons, List.foldl_append, ih a]
    show 10 * (a * 10 ^ t.length + ofLE t) + d = a * 10 ^ (d :: t).length + ofLE (d :: t)
    simp only [ofLE, List.length_cons]
    ring

theorem natChars_foldl (n : Nat) :
    (natChars n).foldl (fun a c => 10 * a + charVal c) 0 = n := by
  unfold natChars
  by_cases h0 : n = 0
  · rw [if_pos h0, h0]
    decide
  · rw [if_neg h0]
    rw [foldl_digitChars _ _ (fun d hd =>
      natDigitsAux_lt10 n n d (List.mem_reverse.mp hd))]
    rw [foldl_rev_ofLE (natDigitsAux n n) 0, ofLE_natDigitsAux n n (Nat.le_refl n)]
    simp

theorem parseNat_natChars (n : Nat) (rest : List Char) (h : noDigitHead rest = true) :
    parseNat (natChars n ++ rest) = some (n, rest) := by
  unfold parseNat
  rw [takeWhile_all_append _ _ _ (natChars_all_isDigit n),
    takeWhile_isDigit_noDigitHead h, List.append_nil,
    dropWhile_all_append _ _ _ (natChars_all_isDigit n),
    dropWhile_isDigit_noDigitHead h]
  cases hcons : natChars n with
  | nil => exact absurd hcons (natChars_ne_nil n)
  | cons c cs =>
    show some ((c :: cs).foldl (fun a c => 10 * a + charVal c) 0, rest) = some (n, rest)
    rw [← hcons, natChars_foldl n]

theorem hexVal_hexDigit {d : Nat} (h : d < 16) : hexVal (hexDigit d) = some d := by
  interval_cases d <;> decide

/-! ## Reduction shapes of the string-body decoder -/

theorem psf_quote (f : Nat) (rest : List Char) :
    parseStrCharsF (f + 1) ('"' :: rest) = some ([], rest) := by
  rw [parseStrCharsF.eq_3]
  rfl

theorem psf_escq (f : Nat) (X : List Char) :
    parseStrCharsF (f + 1) ('\\' :: '"' :: X) =
      match parseStrCharsF f X with
      | some (t, r) => some ('"' :: t, r)
      | none => none := by
  rw [parseStrCharsF.eq_3]
  rfl

theorem psf_escb (f : Nat) (X : List Char) :
    parseStrCharsF (f + 1) ('\\' :: '\\' :: X) =
      match parseStrCharsF f X with
      | some (t, r) => some ('\\' :: t, r)
      | none => none := by
  rw [parseStrCharsF.eq_3]
  rfl

theorem psf_escu (f : Nat) (a b c2 d : Char) (X : List Char) :
    parseStrCharsF (f + 1) ('\\' :: 'u' :: a :: b :: c2 :: d :: X) =
      match hexVal a, hexVal b, hexVal c2, hexVal d with
      | some ha, some hb, some hc, some hd =>
        (match parseStrCharsF f X with
         | some (t, r) => some (Char.ofNat (((ha * 16 + hb) * 16 + hc) * 16 + hd) :: t, r)
         | none => none)
      | _, _, _, _ => none := by
  rw [parseStrCharsF.eq_3]
  rfl

theorem psf_plain (f : Nat) (c : Char) (X : List Char) (h1 : ¬ c = '"') (h2 : ¬ c = '\\') :
    parseStrCharsF (f + 1) (c :: X) =
      match parseStrCharsF f X with
      | some (t, r) => some (c :: t, r)
      | none => none := by
  rw [parseStrCharsF.eq_3, if_neg h1, if_neg h2]

theorem escapeStr_nil : escapeStr [] = [] := rfl

theorem escapeStr_cons (c : Char) (t : List Char) :
    escapeStr (c :: t) = escChar c ++ escapeStr t := by
  simp [escapeStr]

theorem psf_escape : ∀ (s : List Char) (fuel : Nat) (rest : List Char),
    s.length + 1 ≤ fuel →
    parseStrCharsF fuel (escapeStr s ++ '"' :: rest) = some (s, rest) := by
  intro s
  induction s with
  | nil =>
    intro fuel rest hfuel
    cases fuel with
    | zero => omega
    | succ f =>
      rw [escapeStr_nil, List.nil_append, psf_quote]
  | cons c t ih =>
    intro fuel rest hfuel
    cases fuel with
    | zero => omega
    | succ f =>
      have hf : t.length + 1 ≤ f := by
        have : (c :: t).length = t.length + 1 := rfl
        omega
      rw [escapeStr_cons, List.append_assoc]
      by_cases h1 : c = '"'
      · have he : escChar c = ['\\', '"'] := by unfold escChar; rw [if_pos h1]
        rw [he]
        show parseStrCharsF (f + 1) ('\\' :: '"' :: (escapeStr t ++ '"' :: rest)) =
          some (c :: t, rest)
        rw [psf_escq, ih f rest hf, h1]
      · by_cases h2 : c = '\\'
        · have he : escChar c = ['\\', '\\'] := by unfold escChar; rw [if_neg h1, if_pos h2]
          rw [he]
          show parseStrCharsF (f + 1) ('\\' :: '\\' :: (escapeStr t ++ '"' :: rest)) =
            some (c :: t, rest)
          rw [psf_escb, ih f rest hf, h2]
        · by_cases h3 : c.toNat < 32
          · have he : escChar c =
                ['\\', 'u', '0', '0', hexDigit (c.toNat / 16), hexDigit (c.toNat % 16)] := by
              unfold escChar; rw [if_neg h1, if_neg h2, if_pos h3]
            rw [he]
            show parseStrCharsF (f + 1) ('\\' :: 'u' :: '0' :: '0' :: hexDigit (c.toNat / 16) ::
                hexDigit (c.toNat % 16) :: (escapeStr t ++ '"' :: rest)) = some (c :: t, rest)
            rw [psf_escu,
              hexVal_hexDigit (show c.toNat / 16 < 16 by omega),
              hexVal_hexDigit (show c.toNat % 16 < 16 by omega)]
            show (match parseStrCharsF f (escapeStr t ++ '"' :: rest) with
                  | some (u, r) => some (Char.ofNat
                      (((0 * 16 + 0) * 16 + c.toNat / 16) * 16 + c.toNat % 16) :: u, r)
                  | none => none) = some (c :: t, rest)
            rw [ih f rest hf]
            show some (Char.ofNat
                (((0 * 16 + 0) * 16 + c.toNat / 16) * 16 + c.toNat % 16) :: t, rest) =
              some (c :: t, rest)
            rw [show ((0 * 16 + 0) * 16 + c.toNat / 16) * 16 + c.toNat % 16 = c.toNat by omega,
              Char.ofNat_toNat]
          · have he : escChar c = [c] := by unfold escChar; rw [if_neg h1, if_neg h2, if_neg h3]
            rw [he]
            show parseStrCharsF (f + 1) (c :: (escapeStr t ++ '"' :: rest)) = some (c :: t, rest)
            rw [psf_plain f c _ h1 h2, ih f rest hf]

theorem escChar_length_pos (c : Char) : 1 ≤ (escChar c).length := by
  unfold escChar
  split_ifs <;> simp

theorem escapeStr_length_ge : ∀ (s : List Char), s.length ≤ (escapeStr s).length := by
  intro s
  induction s with
  | nil => simp [escapeStr]
  | cons c t ih =>
    rw [escapeStr_cons]
    have := escChar_length_pos c
    simp only [List.length_append, List.length_cons]
    omega

theorem parseStrChars_escape (s rest : List Char) :
    parseStrChars (escapeStr s ++ '"' :: rest) = some (s, rest) := by
  unfold parseStrChars
  apply psf_escape
  have := escapeStr_length_ge s
  simp only [List.length_append, List.length_cons]
  omega


/-! ## Round-trip of the modelled serializer through the modelled decoder -/

theorem skipWS_cons_not {c : Char} (cs : List Char) (h : isJsonWS c = false) :
    skipWS (c :: cs) = c :: cs := by
  unfold skipWS
  rw [List.dropWhile_cons, h]
  simp

theorem digit_ne {c x : Char} (hd : c.isDigit = true) (hx : ¬ x.isDigit = true) : c ≠ x :=
  fun e => hx (e ▸ hd)

theorem ws_char_cases {c : Char} (h : isJsonWS c = true) :
    c = ' ' ∨ c = '\t' ∨ c = '\n' ∨ c = '\r' := by
  unfold isJsonWS at h
  simp only [Bool.or_eq_true, decide_eq_true_eq] at h
  tauto

theorem digit_not_ws {c : Char} (hd : c.isDigit = true) : isJsonWS c = false := by
  cases hws : isJsonWS c with
  | false => rfl
  | true =>
    rcases ws_char_cases hws with rfl | rfl | rfl | rfl <;> exact absurd hd (by decide)

theorem fuelVal_pos (v : JsonValue) : 1 ≤ fuelVal v := by
  cases v <;> simp only [fuelVal] <;> omega

theorem fuelElems_pos (es : JsonElems) : 1 ≤ fuelElems es := by
  cases es <;> simp only [fuelElems] <;> omega

theorem fuelFields_pos (fs : JsonFields) : 1 ≤ fuelFields fs := by
  cases fs <;> simp only [fuelFields] <;> omega

theorem strVal_head (v : JsonValue) :
    ∃ c cs, strVal v = c :: cs ∧ isJsonWS c = false ∧ ¬ c = ']' := by
  cases v with
  | null => exact ⟨'n', _, rfl, by decide, by decide⟩
  | bool b =>
    cases b with
    | false => exact ⟨'f', _, rfl, by decide, by decide⟩
    | true => exact ⟨'t', _, rfl, by decide, by decide⟩
  | num i =>
    by_cases hi : i < 0
    · refine ⟨'-', natChars i.natAbs, ?_, by decide, by decide⟩
      show strNum i = _
      unfold strNum
      rw [if_pos hi]
    · obtain ⟨c, cs, hnc, hd⟩ := natChars_head_digit i.toNat
      refine ⟨c, cs, ?_, digit_not_ws hd, digit_ne hd (by decide)⟩
      show strNum i = _
      unfold strNum
      rw [if_neg hi, hnc]
  | str s => exact ⟨'"', _, rfl, by decide, by decide⟩
  | arr es => exact ⟨'[', _, rfl, by decide, by decide⟩
  | obj fs => exact ⟨'{', _, rfl, by decide, by decide⟩

theorem parseArrBody_rb (f : Nat) {s r : List Char} (h : skipWS s = ']' :: r) :
    parseArrBody (f + 1) s = some (.arr .nil, r) := by
  rw [parseArrBody.eq_2, h]
  rfl

theorem parseArrBody_go (f : Nat) {s : List Char} {c : Char} {r : List Char}
    (h : skipWS s = c :: r) (hne : ¬ c = ']')
    {v : JsonValue} {rv : List Char} {es : JsonElems} {r2 : List Char}
    (hv : parseVal f s = some (v, rv)) (ht : parseElemsTail f rv = some (es, r2)) :
    parseArrBody (f + 1) s = some (.arr (.cons v es), r2) := by
  simp only [parseArrBody.eq_2, h, hv, ht, hne, if_false]

theorem parseElemsTail_rb (f : Nat) {s r : List Char} (h : skipWS s = ']' :: r) :
    parseElemsTail (f + 1) s = some (.nil, r) := by
  rw [parseElemsTail.eq_2, h]
  rfl

theorem parseElemsTail_comma (f : Nat) {s r : List Char}
    (h : skipWS s = ',' :: r)
    {v : JsonValue} {rv : List Char} {es : JsonElems} {r2 : List Char}
    (hv : parseVal f r = some (v, rv)) (ht : parseElemsTail f rv = some (es, r2)) :
    parseElemsTail (f + 1) s = some (.cons v es, r2) := by
  simp only [parseElemsTail.eq_2, h, hv, ht, if_true]

theorem parseObjBody_rb (f : Nat) {s r : List Char} (h : skipWS s = '}' :: r) :
    parseObjBody (f + 1) s = some (.obj .nil, r) := by
  rw [parseObjBody.eq_2, h]
  rfl

theorem parseObjBody_go (f : Nat) {s : List Char} {c : Char} {r : List Char}
    (h : skipWS s = c :: r) (hne : ¬ c = '}')
    {k : List Char} {v : JsonValue} {rv : List Char} {fs : JsonFields} {r2 : List Char}
    (hm : parseMember f (c :: r) = some (k, v, rv))
    (ht : parseFieldsTail f rv = some (fs, r2)) :
    parseObjBody (f + 1) s = some (.obj (.cons k v fs), r2) := by
  simp only [parseObjBody.eq_2, h, hm, ht, hne, if_false]

theorem parseMember_go (f : Nat) {s r : List Char}
    (h : skipWS s = '"' :: r)
    {k r1 : List Char} {r2 : List Char} {v : JsonValue} {r3 : List Char}
    (hs : parseStrChars r = some (k, r1)) (hc : skipWS r1 = ':' :: r2)
    (hv : parseVal f r2 = some (v, r3)) :
    parseMember (f + 1) s = some (k, v, r3) := by
  simp only [parseMember.eq_2, h, hs, hc, hv, if_true]

theorem parseFieldsTail_rb (f : Nat) {s r : List Char} (h : skipWS s = '}' :: r) :
    parseFieldsTail (f + 1) s = some (.nil, r) := by
  rw [parseFieldsTail.eq_2, h]
  rfl

theorem parseFieldsTail_comma (f : Nat) {s r : List Char}
    (h : skipWS s = ',' :: r)
    {k : List Char} {v : JsonValue} {rv : List Char} {fs : JsonFields} {r2 : List Char}
    (hm : parseMember f r = some (k, v, rv)) (ht : parseFieldsTail f rv = some (fs, r2)) :
    parseFieldsTail (f + 1) s = some (.cons k v fs, r2) := by
  simp only [parseFieldsTail.eq_2, h, hm, ht, if_true]


theorem parseVal_step (f : Nat) {s : List Char} {c : Char} {r : List Char}
    (h : skipWS s = c :: r) :
    parseVal (f + 1) s =
      if c = 'n' then Option.map (fun x => (JsonValue.null, x)) (stripLit ['u', 'l', 'l'] r)
      else if c = 't' then
        Option.map (fun x => (JsonValue.bool true, x)) (stripLit ['r', 'u', 'e'] r)
      else if c = 'f' then
        Option.map (fun x => (JsonValue.bool false, x)) (stripLit ['a', 'l', 's', 'e'] r)
      else if c = '"' then
        Option.map (fun p => (JsonValue.str p.1, p.2)) (parseStrChars r)
      else if c = '-' then
        Option.map (fun p => (JsonValue.num (-(p.1 : Int)), p.2)) (parseNat r)
      else if c = '[' then parseArrBody f r
      else if c = '{' then parseObjBody f r
      else if c.isDigit = true then
        Option.map (fun p => (JsonValue.num ((p.1 : Nat) : Int), p.2)) (parseNat (c :: r))
      else none := by
  rw [parseVal.eq_2, h]

mutual

theorem parseVal_strVal (v : JsonValue) (fuel : Nat) (rest : List Char)
    (hf : fuelVal v ≤ fuel) (hr : noDigitHead rest = true) :
    parseVal fuel (strVal v ++ rest) = some (v, rest) := by
  obtain ⟨f, rfl⟩ : ∃ f, fuel = f + 1 :=
    ⟨fuel - 1, by have := fuelVal_pos v; omega⟩
  cases v with
  | null =>
    have h : skipWS (strVal JsonValue.null ++ rest) = 'n' :: (['u', 'l', 'l'] ++ rest) :=
      skipWS_cons_not _ (by decide)
    rw [parseVal_step f h, stripLit_append]
    rfl
  | bool b =>
    cases b with
    | true =>
      have h : skipWS (strVal (JsonValue.bool true) ++ rest) =
          't' :: (['r', 'u', 'e'] ++ rest) := skipWS_cons_not _ (by decide)
      rw [parseVal_step f h, stripLit_append]
      rfl
    | false =>
      have h : skipWS (strVal (JsonValue.bool false) ++ rest) =
          'f' :: (['a', 'l', 's', 'e'] ++ rest) := skipWS_cons_not _ (by decide)
      rw [parseVal_step f h, stripLit_append]
      rfl
  | num i =>
    by_cases hi : i < 0
    · have hs : strVal (JsonValue.num i) ++ rest = '-' :: (natChars i.natAbs ++ rest) := by
        show strNum i ++ rest = _
        unfold strNum
        rw [if_pos hi]
        rfl
      have h : skipWS ('-' :: (natChars i.natAbs ++ rest)) =
          '-' :: (natChars i.natAbs ++ rest) := skipWS_cons_not _ (by decide)
      rw [hs, parseVal_step f h, parseNat_natChars _ _ hr]
      show some (JsonValue.num (-(i.natAbs : Int)), rest) = some (JsonValue.num i, rest)
      rw [show -((i.natAbs : Int)) = i by omega]
    · obtain ⟨c, cs, hnc, hd⟩ := natChars_head_digit i.toNat
      have hs : strVal (JsonValue.num i) ++ rest = c :: (cs ++ rest) := by
        show strNum i ++ rest = _
        unfold strNum
        rw [if_neg hi, hnc]
        rfl
      have h : skipWS (c :: (cs ++ rest)) = c :: (cs ++ rest) :=
        skipWS_cons_not _ (digit_not_ws hd)
      rw [hs, parseVal_step f h,
        if_neg (show ¬ c = 'n' from digit_ne hd (by decide)),
        if_neg (show ¬ c = 't' from digit_ne hd (by decide)),
        if_neg (show ¬ c = 'f' from digit_ne hd (by decide)),
        if_neg (show ¬ c = '"' from digit_ne hd (by decide)),
        if_neg (show ¬ c = '-' from digit_ne hd (by decide)),
        if_neg (show ¬ c = '[' from digit_ne hd (by decide)),
        if_neg (show ¬ c = '{' from digit_ne hd (by decide)),
        if_pos hd,
        show c :: (cs ++ rest) = natChars i.toNat ++ rest from by rw [hnc]; rfl,
        parseNat_natChars _ _ hr]
      show some (JsonValue.num ((i.toNat : Nat) : Int), rest) = some (JsonValue.num i, rest)
      rw [show ((i.toNat : Nat) : Int) = i by omega]
  | str s =>
    have hs : strVal (JsonValue.str s) ++ rest = '"' :: (escapeStr s ++ '"' :: rest) := by
      show '"' :: ((escapeStr s ++ ['"']) ++ rest) = _
      rw [List.append_assoc]
      rfl
    have h : skipWS ('"' :: (escapeStr s ++ '"' :: rest)) =
        '"' :: (escapeStr s ++ '"' :: rest) := skipWS_cons_not _ (by decide)
    rw [hs, parseVal_step f h, parseStrChars_escape]
    rfl
  | arr es =>
    have hs : strVal (JsonValue.arr es) ++ rest = '[' :: (strElems es ++ ']' :: rest) := by
      show '[' :: ((strElems es ++ [']']) ++ rest) = _
      rw [List.append_assoc]
      rfl
    have h : skipWS ('[' :: (strElems es ++ ']' :: rest)) =
        '[' :: (strElems es ++ ']' :: rest) := skipWS_cons_not _ (by decide)
    have hf' : fuelElems es ≤ f := by
      simp only [fuelVal] at hf
      omega
    rw [hs, parseVal_step f h]
    exact parseArrBody_strElems es f rest hf'
  | obj fs =>
    have hs : strVal (JsonValue.obj fs) ++ rest = '{' :: (strFields fs ++ '}' :: rest) := by
      show '{' :: ((strFields fs ++ ['}']) ++ rest) = _
      rw [List.append_assoc]
      rfl
    have h : skipWS ('{' :: (strFields fs ++ '}' :: rest)) =
        '{' :: (strFields fs ++ '}' :: rest) := skipWS_cons_not _ (by decide)
    have hf' : fuelFields fs ≤ f := by
      simp only [fuelVal] at hf
      omega
    rw [hs, parseVal_step f h]
    exact parseObjBody_strFields fs f rest hf'

termination_by 3 * sizeOf v
decreasing_by
all_goals subst_vars
all_goals simp_wf
all_goals omega

theorem parseArrBody_strElems (es : JsonElems) (fuel : Nat) (rest : List Char)
    (hf : fuelElems es ≤ fuel) :
    parseArrBody fuel (strElems es ++ ']' :: rest) = some (.arr es, rest) := by
  obtain ⟨f, rfl⟩ : ∃ f, fuel = f + 1 :=
    ⟨fuel - 1, by have := fuelElems_pos es; omega⟩
  cases es with
  | nil =>
    have h : skipWS (strElems JsonElems.nil ++ ']' :: rest) = ']' :: rest :=
      skipWS_cons_not _ (by decide)
    exact parseArrBody_rb f h
  | cons v t =>
    obtain ⟨c, cs, hv, hcws, hcrb⟩ := strVal_head v
    have hfv : fuelVal v ≤ f ∧ fuelElems t ≤ f := by
      simp only [fuelElems] at hf
      omega
    have hs : strElems (JsonElems.cons v t) ++ ']' :: rest =
        c :: (cs ++ (strTail t ++ ']' :: rest)) := by
      show (strVal v ++ strTail t) ++ ']' :: rest = _
      rw [List.append_assoc, hv]
      rfl
    have h : skipWS (c :: (cs ++ (strTail t ++ ']' :: rest))) =
        c :: (cs ++ (strTail t ++ ']' :: rest)) := skipWS_cons_not _ hcws
    have hval : parseVal f (c :: (cs ++ (strTail t ++ ']' :: rest))) =
        some (v, strTail t ++ ']' :: rest) := by
      rw [show c :: (cs ++ (strTail t ++ ']' :: rest)) =
          strVal v ++ (strTail t ++ ']' :: rest) from by rw [hv]; rfl]
      exact parseVal_strVal v f _ hfv.1 (by cases t <;> rfl)
    have ht := parseElemsTail_strTail t f rest hfv.2
    rw [hs]
    exact parseArrBody_go f h hcrb hval ht

termination_by 3 * sizeOf es + 1
decreasing_by
all_goals subst_vars
all_goals simp_wf
all_goals omega

theorem parseElemsTail_strTail (es : JsonElems) (fuel : Nat) (rest : List Char)
    (hf : fuelElems es ≤ fuel) :
    parseElemsTail fuel (strTail es ++ ']' :: rest) = some (es, rest) := by
  obtain ⟨f, rfl⟩ : ∃ f, fuel = f + 1 :=
    ⟨fuel - 1, by have := fuelElems_pos es; omega⟩
  cases es with
  | nil =>
    have h : skipWS (strTail JsonElems.nil ++ ']' :: rest) = ']' :: rest :=
      skipWS_cons_not _ (by decide)
    exact parseElemsTail_rb f h
  | cons v t =>
    have hfv : fuelVal v ≤ f ∧ fuelElems t ≤ f := by
      simp only [fuelElems] at hf
      omega
    have hs : strTail (JsonElems.cons v t) ++ ']' :: rest =
        ',' :: ((strVal v ++ strTail t) ++ ']' :: rest) := rfl
    have h : skipWS (',' :: ((strVal v ++ strTail t) ++ ']' :: rest)) =
        ',' :: ((strVal v ++ strTail t) ++ ']' :: rest) := skipWS_cons_not _ (by decide)
    have hval : parseVal f ((strVal v ++ strTail t) ++ ']' :: rest) =
        some (v, strTail t ++ ']' :: rest) := by
      rw [List.append_assoc]
      exact parseVal_strVal v f _ hfv.1 (by cases t <;> rfl)
    have ht := parseElemsTail_strTail t f rest hfv.2
    rw [hs]
    exact parseElemsTail_comma f h hval ht

termination_by 3 * sizeOf es
decreasing_by
all_goals subst_vars
all_goals simp_wf
all_goals omega

theorem parseObjBody_strFields (fs : JsonFields) (fuel : Nat) (rest : List Char)
    (hf : fuelFields fs ≤ fuel) :
    parseObjBody fuel (strFields fs ++ '}' :: rest) = some (.obj fs, rest) := by
  obtain ⟨f, rfl⟩ : ∃ f, fuel = f + 1 :=
    ⟨fuel - 1, by have := fuelFields_pos fs; omega⟩
  cases fs with
  | nil =>
    have h : skipWS (strFields JsonFields.nil ++ '}' :: rest) = '}' :: rest :=
      skipWS_cons_not _ (by decide)
    exact parseObjBody_rb f h
  | cons k v t =>
    have hfv : 1 + fuelVal v ≤ f ∧ fuelFields t ≤ f := by
      simp only [fuelFields] at hf
      omega
    have hs : strFields (JsonFields.cons k v t) ++ '}' :: rest =
        '"' :: ((escapeStr k ++ '"' :: ':' :: (strVal v ++ strFTail t)) ++ '}' :: rest) := rfl
    have h : skipWS ('"' :: ((escapeStr k ++ '"' :: ':' :: (strVal v ++ strFTail t)) ++ '}' :: rest)) =
        '"' :: ((escapeStr k ++ '"' :: ':' :: (strVal v ++ strFTail t)) ++ '}' :: rest) :=
      skipWS_cons_not _ (by decide)
    have hm : parseMember f
        ('"' :: ((escapeStr k ++ '"' :: ':' :: (strVal v ++ strFTail t)) ++ '}' :: rest)) =
        some (k, v, strFTail t ++ '}' :: rest) := by
      rw [List.append_assoc,
        show ('"' :: ':' :: (strVal v ++ strFTail t)) ++ '}' :: rest =
          '"' :: ':' :: ((strVal v ++ strFTail t) ++ '}' :: rest) from rfl,
        List.append_assoc]
      exact parseMember_form k v f (strFTail t ++ '}' :: rest) hfv.1 (by cases t <;> rfl)
    have ht := parseFieldsTail_strFTail t f rest hfv.2
    rw [hs]
    exact parseObjBody_go f h (by decide) hm ht

termination_by 3 * sizeOf fs + 1
decreasing_by
all_goals subst_vars
all_goals simp_wf
all_goals omega

theorem parseMember_form (k : List Char) (v : JsonValue) (fuel : Nat) (X : List Char)
    (hf : 1 + fuelVal v ≤ fuel) (hX : noDigitHead X = true) :
    parseMember fuel ('"' :: (escapeStr k ++ '"' :: ':' :: (strVal v ++ X))) =
      some (k, v, X) := by
  obtain ⟨f, rfl⟩ : ∃ f, fuel = f + 1 := ⟨fuel - 1, by omega⟩
  have h : skipWS ('"' :: (escapeStr k ++ '"' :: ':' :: (strVal v ++ X))) =
      '"' :: (escapeStr k ++ '"' :: ':' :: (strVal v ++ X)) := skipWS_cons_not _ (by decide)
  have hsc : parseStrChars (escapeStr k ++ '"' :: ':' :: (strVal v ++ X)) =
      some (k, ':' :: (strVal v ++ X)) := parseStrChars_escape k _
  have hc : skipWS (':' :: (strVal v ++ X)) = ':' :: (strVal v ++ X) :=
    skipWS_cons_not _ (by decide)
  have hv : parseVal f (strVal v ++ X) = some (v, X) :=
    parseVal_strVal v f X (by omega) hX
  exact parseMember_go f h hsc hc hv

termination_by 3 * sizeOf v + 2
decreasing_by
all_goals subst_vars
all_goals simp_wf
all_goals omega

theorem parseFieldsTail_strFTail (fs : JsonFields) (fuel : Nat) (rest : List Char)
    (hf : fuelFields fs ≤ fuel) :
    parseFieldsTail fuel (strFTail fs ++ '}' :: rest) = some (fs, rest) := by
  obtain ⟨f, rfl⟩ : ∃ f, fuel = f + 1 :=
    ⟨fuel - 1, by have := fuelFields_pos fs; omega⟩
  cases fs with
  | nil =>
    have h : skipWS (strFTail JsonFields.nil ++ '}' :: rest) = '}' :: rest :=
      skipWS_cons_not _ (by decide)
    exact parseFieldsTail_rb f h
  | cons k v t =>
    have hfv : 1 + fuelVal v ≤ f ∧ fuelFields t ≤ f := by
      simp only [fuelFields] at hf
      omega
    have hs : strFTail (JsonFields.cons k v t) ++ '}' :: rest =
        ',' :: ('"' :: ((escapeStr k ++ '"' :: ':' :: (strVal v ++ strFTail t)) ++ '}' :: rest)) := rfl
    have h : skipWS (',' :: ('"' :: ((escapeStr k ++ '"' :: ':' :: (strVal v ++ strFTail t)) ++ '}' :: rest))) =
        ',' :: ('"' :: ((escapeStr k ++ '"' :: ':' :: (strVal v ++ strFTail t)) ++ '}' :: rest)) :=
      skipWS_cons_not _ (by decide)
    have hm : parseMember f
        ('"' :: ((escapeStr k ++ '"' :: ':' :: (strVal v ++ strFTail t)) ++ '}' :: rest)) =
        some (k, v, strFTail t ++ '}' :: rest) := by
      rw [List.append_assoc,
        show ('"' :: ':' :: (strVal v ++ strFTail t)) ++ '}' :: rest =
          '"' :: ':' :: ((strVal v ++ strFTail t) ++ '}' :: rest) from rfl,
        List.append_assoc]
      exact parseMember_form k v f (strFTail t ++ '}' :: rest) hfv.1 (by cases t <;> rfl)
    have ht := parseFieldsTail_strFTail t f rest hfv.2
    rw [hs]
    exact parseFieldsTail_comma f h hm ht

termination_by 3 * sizeOf fs
decreasing_by
all_goals subst_vars
all_goals simp_wf
all_goals omega
end


theorem strVal_length_pos (v : JsonValue) : 1 ≤ (strVal v).length := by
  obtain ⟨c, cs, hv, _, _⟩ := strVal_head v
  rw [hv]
  simp

theorem strTail_length (t : JsonElems) : (strElems t).length ≤ (strTail t).length := by
  cases t <;> simp [strElems, strTail]

theorem strFTail_length (t : JsonFields) : (strFields t).length ≤ (strFTail t).length := by
  cases t <;> simp [strFields, strFTail]

mutual

theorem fuelVal_le (v : JsonValue) : fuelVal v ≤ (strVal v).length := by
  cases v with
  | null => decide
  | bool b => cases b <;> decide
  | num i =>
    have h := strVal_length_pos (JsonValue.num i)
    simp only [fuelVal]
    omega
  | str s =>
    have h := strVal_length_pos (JsonValue.str s)
    simp only [fuelVal]
    omega
  | arr es =>
    have h := fuelElems_le es
    have h2 : (strVal (JsonValue.arr es)).length = (strElems es).length + 2 := by
      show ('[' :: (strElems es ++ [']'])).length = _
      simp
    simp only [fuelVal]
    omega
  | obj fs =>
    have h := fuelFields_le fs
    have h2 : (strVal (JsonValue.obj fs)).length = (strFields fs).length + 2 := by
      show ('{' :: (strFields fs ++ ['}'])).length = _
      simp
    simp only [fuelVal]
    omega
termination_by sizeOf v
decreasing_by
all_goals subst_vars
all_goals simp_wf
all_goals omega

theorem fuelElems_le (es : JsonElems) : fuelElems es ≤ (strElems es).length + 1 := by
  cases es with
  | nil => decide
  | cons v t =>
    have h1 := fuelVal_le v
    have h2 := fuelElems_le t
    have h3 := strVal_length_pos v
    have h4 := strTail_length t
    have h5 : (strElems (JsonElems.cons v t)).length =
        (strVal v).length + (strTail t).length := by
      show (strVal v ++ strTail t).length = _
      simp
    simp only [fuelElems]
    omega
termination_by sizeOf es
decreasing_by
all_goals subst_vars
all_goals simp_wf
all_goals omega

theorem fuelFields_le (fs : JsonFields) : fuelFields fs ≤ (strFields fs).length + 1 := by
  cases fs with
  | nil => decide
  | cons k v t =>
    have h1 := fuelVal_le v
    have h2 := fuelFields_le t
    have h4 := strFTail_length t
    have h5 : (strFields (JsonFields.cons k v t)).length =
        (escapeStr k).length + (strVal v).length + (strFTail t).length + 3 := by
      show ('"' :: (escapeStr k ++ '"' :: ':' :: (strVal v ++ strFTail t))).length = _
      simp only [List.length_cons, List.length_append]
      omega
    simp only [fuelFields]
    omega
termination_by sizeOf fs
decreasing_by
all_goals subst_vars
all_goals simp_wf
all_goals omega

end

theorem jsonParse_strVal (v : JsonValue) : jsonParse (strVal v) = some v := by
  unfold jsonParse
  have hb : fuelVal v ≤ (strVal v).length + 1 := le_trans (fuelVal_le v) (by omega)
  have h1 : parseVal ((strVal v).length + 1) (strVal v) = some (v, []) := by
    have h := parseVal_strVal v ((strVal v).length + 1) [] hb rfl
    rwa [List.append_nil] at h
  rw [h1]
  rfl

theorem hexDigit_ne_nl (d : Nat) : ¬ hexDigit d = '\n' := by
  by_cases h : d < 16
  · interval_cases d <;> decide
  · have hf : hexDigit d = 'f' := by
      unfold hexDigit
      repeat' rw [if_neg (show ¬ d = _ by omega)]
    rw [hf]
    decide

theorem nl_not_escChar (c : Char) : ('\n' : Char) ∉ escChar c := by
  unfold escChar
  split_ifs with h1 h2 h3
  · decide
  · decide
  · intro hm
    simp only [List.mem_cons, List.not_mem_nil, or_false] at hm
    rcases hm with h | h | h | h | h | h
    · exact absurd h (by decide)
    · exact absurd h (by decide)
    · exact absurd h (by decide)
    · exact absurd h (by decide)
    · exact hexDigit_ne_nl _ h.symm
    · exact hexDigit_ne_nl _ h.symm
  · intro hm
    simp only [List.mem_singleton] at hm
    subst hm
    exact h3 (by decide)

theorem nl_not_escapeStr (s : List Char) : ('\n' : Char) ∉ escapeStr s := by
  unfold escapeStr
  intro hm
  rw [List.mem_flatten] at hm
  obtain ⟨l, hl, hml⟩ := hm
  rw [List.mem_map] at hl
  obtain ⟨c, _, rfl⟩ := hl
  exact nl_not_escChar c hml

theorem nl_not_natChars (n : Nat) : ('\n' : Char) ∉ natChars n := by
  intro hm
  have := natChars_all_isDigit n _ hm
  exact absurd this (by decide)

theorem nl_not_strNum (i : Int) : ('\n' : Char) ∉ strNum i := by
  unfold strNum
  split_ifs
  · intro hm
    rcases List.mem_cons.mp hm with h | h
    · exact absurd h (by decide)
    · exact nl_not_natChars _ h
  · exact nl_not_natChars _

mutual

theorem nl_not_strVal (v : JsonValue) : ('\n' : Char) ∉ strVal v := by
  cases v with
  | null => decide
  | bool b => cases b <;> decide
  | num i => exact nl_not_strNum i
  | str s =>
    intro hm
    have hm' : ('\n' : Char) ∈ '"' :: (escapeStr s ++ ['"']) := hm
    rcases List.mem_cons.mp hm' with h | h
    · exact absurd h (by decide)
    · rcases List.mem_append.mp h with h2 | h2
      · exact nl_not_escapeStr s h2
      · exact absurd h2 (by decide)
  | arr es =>
    intro hm
    have hm' : ('\n' : Char) ∈ '[' :: (strElems es ++ [']']) := hm
    rcases List.mem_cons.mp hm' with h | h
    · exact absurd h (by decide)
    · rcases List.mem_append.mp h with h2 | h2
      · exact nl_not_strElems es h2
      · exact absurd h2 (by decide)
  | obj fs =>
    intro hm
    have hm' : ('\n' : Char) ∈ '{' :: (strFields fs ++ ['}']) := hm
    rcases List.mem_cons.mp hm' with h | h
    · exact absurd h (by decide)
    · rcases List.mem_append.mp h with h2 | h2
      · exact nl_not_strFields fs h2
      · exact absurd h2 (by decide)
termination_by sizeOf v
decreasing_by
all_goals subst_vars
all_goals simp_wf
all_goals omega

theorem nl_not_strElems (es : JsonElems) : ('\n' : Char) ∉ strElems es := by
  cases es with
  | nil => simp [strElems]
  | cons v t =>
    intro hm
    have hm' : ('\n' : Char) ∈ strVal v ++ strTail t := hm
    rcases List.mem_append.mp hm' with h | h
    · exact nl_not_strVal v h
    · exact nl_not_strTail t h
termination_by sizeOf es
decreasing_by
all_goals subst_vars
all_goals simp_wf
all_goals omega

theorem nl_not_strTail (es : JsonElems) : ('\n' : Char) ∉ strTail es := by
  cases es with
  | nil => simp [strTail]
  | cons v t =>
    intro hm
    have hm' : ('\n' : Char) ∈ ',' :: (strVal v ++ strTail t) := hm
    rcases List.mem_cons.mp hm' with h | h
    · exact absurd h (by decide)
    · rcases List.mem_append.mp h with h2 | h2
      · exact nl_not_strVal v h2
      · exact nl_not_strTail t h2
termination_by sizeOf es
decreasing_by
all_goals subst_vars
all_goals simp_wf
all_goals omega

theorem nl_not_strFields (fs : JsonFields) : ('\n' : Char) ∉ strFields fs := by
  cases fs with
  | nil => simp [strFields]
  | cons k v t =>
    intro hm
    have hm' : ('\n' : Char) ∈
        '"' :: (escapeStr k ++ '"' :: ':' :: (strVal v ++ strFTail t)) := hm
    rcases List.mem_cons.mp hm' with h | h
    · exact absurd h (by decide)
    · rcases List.mem_append.mp h with h2 | h2
      · exact nl_not_escapeStr k h2
      · rcases List.mem_cons.mp h2 with h3 | h3
        · exact absurd h3 (by decide)
        · rcases List.mem_cons.mp h3 with h4 | h4
          · exact absurd h4 (by decide)
          · rcases List.mem_append.mp h4 with h5 | h5
            · exact nl_not_strVal v h5
            · exact nl_not_strFTail t h5
termination_by sizeOf fs
decreasing_by
all_goals subst_vars
all_goals simp_wf
all_goals omega

theorem nl_not_strFTail (fs : JsonFields) : ('\n' : Char) ∉ strFTail fs := by
  cases fs with
  | nil => simp [strFTail]
  | cons k v t =>
    intro hm
    have hm' : ('\n' : Char) ∈
        ',' :: '"' :: (escapeStr k ++ '"' :: ':' :: (strVal v ++ strFTail t)) := hm
    rcases List.mem_cons.mp hm' with h0 | h0
    · exact absurd h0 (by decide)
    · rcases List.mem_cons.mp h0 with h | h
      · exact absurd h (by decide)
      · rcases List.mem_append.mp h with h2 | h2
        · exact nl_not_escapeStr k h2
        · rcases List.mem_cons.mp h2 with h3 | h3
          · exact absurd h3 (by decide)
          · rcases List.mem_cons.mp h3 with h4 | h4
            · exact absurd h4 (by decide)
            · rcases List.mem_append.mp h4 with h5 | h5
              · exact nl_not_strVal v h5
              · exact nl_not_strFTail t h5
termination_by sizeOf fs
decreasing_by
all_goals subst_vars
all_goals simp_wf
all_goals omega

end

theorem recordMatch_brace (X : List Char) : recordMatch ('{' :: X) = true := rfl

theorem truncStep_nil (cfg : Config) (chunk : List Char) : truncStep cfg [] chunk = chunk := by
  unfold truncStep
  simp

theorem dataHandler_strVal_obj (fs : JsonFields) :
    dataHandler defaultConfig [] (strVal (JsonValue.obj fs) ++ defaultConfig.EOL) =
      ([], [Event.json (JsonValue.obj fs)]) := by
  have hfree : ('\n' : Char) ∉ strVal (JsonValue.obj fs) := nl_not_strVal _
  have hEOL : defaultConfig.EOL = ['\n'] := rfl
  have hcr : classifyRecord defaultConfig (strVal (JsonValue.obj fs)) false =
      [Event.json (JsonValue.obj fs)] := by
    have h1 : recordMatch (strVal (JsonValue.obj fs)) = true :=
      recordMatch_brace (strFields fs ++ ['}'])
    unfold classifyRecord
    rw [h1, if_pos rfl, jsonParse_strVal]
    rfl
  unfold dataHandler
  rw [hEOL, truncStep_nil, endsWith_append_single '\n' (strVal (JsonValue.obj fs)),
    if_pos rfl, splitOnStr_single]
  rw [show chParts '\n' (strVal (JsonValue.obj fs) ++ ['\n']) =
      [strVal (JsonValue.obj fs), []] from by
    unfold chParts
    rw [splitChP_chFree_append_single '\n' hfree]]
  rw [show loopRecords defaultConfig [strVal (JsonValue.obj fs), []] =
      classifyRecord defaultConfig (strVal (JsonValue.obj fs)) false ++
        (classifyRecord defaultConfig [] true ++ []) from rfl]
  rw [hcr]
  rfl

/-- Claim C6: round-trip through the wire format. For every
JSON-representable value whose top-level form is an object, the write
method appends exactly the serialized text plus the delimiter to the
output handle's log, and feeding those exact bytes to a fresh Frame
Reader produces a single json event whose payload is the original value,
followed only by the end event. -/
theorem claim6_roundtrip (fs : JsonFields) (ret : List (List Char) → List Char → Bool)
    (st : List (List Char)) :
    (write defaultConfig ret st (JsVal.val (JsonValue.obj fs))).2 =
      st ++ [strVal (JsonValue.obj fs) ++ defaultConfig.EOL] ∧
    runStreamEvents defaultConfig [strVal (JsonValue.obj fs) ++ defaultConfig.EOL] =
      [Event.json (JsonValue.obj fs), Event.streamEnd] := by
  constructor
  · rfl
  · show ((dataHandler defaultConfig []
        (strVal (JsonValue.obj fs) ++ defaultConfig.EOL)).2 ++ []) ++ [Event.streamEnd] = _
    rw [dataHandler_strVal_obj fs]
    rfl

end JsonStream
